import Mathlib

/-!
Verification of the artnotizen note organizer (src/lib.py) against its
specification.  Paths and other Python strings are embedded as `List Char`;
Python's `os.path` helpers, the two regular expressions of the module, the
relevant parts of `datetime`, and the functions `organize_notes`,
`wait_for_all`, `compile_markdown` and `index_data` are translated into
executable Lean definitions.  Filesystem enumeration (`os.walk`) and process
launching are external effects: the file list is a parameter of
`organize_notes`, and process completion is a parameter (an oracle giving
each job a completion time and an exit code) of `compile_markdown`.
-/

namespace Artnotizen

/-- A Python string (here: mostly file paths), embedded as a list of
characters. -/
abbrev Path := List Char

/-! ## Basic string helpers -/

/-- Lexicographic strict comparison of strings by character code, as Python 2
compares `str` values. -/
def strLt : Path → Path → Bool
  | [], [] => false
  | [], _ :: _ => true
  | _ :: _, [] => false
  | a :: as, b :: bs => if a < b then true else if b < a then false else strLt as bs

/-- Non-strict string comparison, derived from `strLt` the way a Python sort
derives it from `__lt__`: `a <= b` iff `not (b < a)`. -/
def strLe (a b : Path) : Bool := !(strLt b a)

/-- Numeric value of a digit string (e.g. the month group "06"). -/
def digitsToNat (s : Path) : Nat :=
  s.foldl (fun n c => n * 10 + (c.toNat - ('0').toNat)) 0

/-! ## Embeddings of the `os.path` helpers used by the source -/

/-- POSIX `os.path.basename`: the suffix of the path after its last slash. -/
def basename (p : Path) : Path :=
  (p.reverse.takeWhile (fun c => c ≠ '/')).reverse

/-- POSIX `os.path.join` on two components: an absolute second component
replaces the first; otherwise the components are glued with a slash unless the
first is empty or already ends in a slash. -/
def pjoin (a b : Path) : Path :=
  if b.head? = some '/' then b
  else if a = [] ∨ a.getLast? = some '/' then a ++ b
  else a ++ '/' :: b

/-- POSIX `os.path.splitext`: split off the extension at the last dot of the
final path segment, unless every character of that segment before the dot is
itself a dot (so `.bashrc` has no extension). -/
def splitext (p : Path) : Path × Path :=
  let r := p.reverse
  let afterDotRev := r.takeWhile (fun c => c ≠ '.')
  if afterDotRev.length = r.length then (p, [])
  else if afterDotRev.contains '/' then (p, [])
  else
    let beforeRev := (r.dropWhile (fun c => c ≠ '.')).drop 1
    let baseRev := beforeRev.takeWhile (fun c => c ≠ '/')
    if baseRev.all (fun c => c = '.') then (p, [])
    else (beforeRev.reverse, '.' :: afterDotRev.reverse)

/-- Split a path into its slash-separated segments. -/
def splitSlash (p : Path) : List Path := p.splitOn '/'

/-- Normalize a component list: drop empty and `.` segments and resolve `..`
against the collected stack, as `posixpath.normpath` does on an absolute
path. -/
def normComps (cs : List Path) : List Path :=
  cs.foldl
    (fun acc c =>
      if c = [] ∨ c = (".").data then acc
      else if c = ("..").data then acc.dropLast
      else acc ++ [c])
    []

/-- Length of the common prefix of two component lists
(`os.path.commonprefix` on lists). -/
def commonLen : List Path → List Path → Nat
  | a :: as, b :: bs => if a = b then commonLen as bs + 1 else 0
  | _, _ => 0

/-- POSIX `os.path.relpath path start`.  Modelled for relative inputs whose
normalization does not escape the working directory: the working-directory
prefix that `abspath` would add to both arguments cancels inside
`commonprefix`, so it is omitted. -/
def relpath (p strt : Path) : Path :=
  let pl := normComps (splitSlash p)
  let sl := normComps (splitSlash strt)
  let i := commonLen sl pl
  let rel := List.replicate (sl.length - i) (("..").data) ++ pl.drop i
  if rel = [] then (".").data else List.intercalate (("/").data) rel

/-- Characters `pipes.quote` leaves unquoted. -/
def safeChar (c : Char) : Bool :=
  c.isAlphanum || (c ∈ ['@', '%', '_', '-', '+', '=', ':', ',', '.', '/'])

/-- The single-quote character. -/
def squote : Char := Char.ofNat 39

/-- `pipes.quote`: return the string unchanged when every character is safe,
else wrap it in single quotes, escaping embedded single quotes. -/
def pquote (f : Path) : Path :=
  if f = [] then [squote, squote]
  else if f.all safeChar then f
  else squote :: (f.flatMap (fun c => if c = squote then [squote, '"', squote, '"', squote] else [c])) ++ [squote]

/-- `shlex.split`, modelled for command strings without quote or escape
characters: split on runs of whitespace. -/
def shlexSplit (s : Path) : List Path :=
  ((s.splitOn ' ').map (fun t => t.splitOn '\t')).flatten.filter (fun t => t ≠ [])

/-- `" ".join(args)`. -/
def joinSpaces (args : List Path) : Path := List.intercalate ((" ").data) args

/-! ## The module's two filename regular expressions -/

/-- Take an optional two-digit group at the head of the remainder: two leading
digits if present, else the empty group, as the greedy optional group of the
date regexps behaves. -/
def grab2 : Path → Path × Path
  | a :: b :: r => if a.isDigit && b.isDigit then ([a, b], r) else ([], a :: b :: r)
  | r => ([], r)

/-- `_DATE_REGEXP.match(name).groups("")`, i.e. matching
`^(dddd)(dd)?(dd)?.*` against a filename and reading the three groups
with `""` as default: `none` when the name does not start with four digits,
else the year and the (possibly empty) month and day groups. -/
def dateMatch : Path → Option (Path × Path × Path)
  | a :: b :: c :: d :: rest =>
    if a.isDigit && b.isDigit && c.isDigit && d.isDigit then
      let (m, r1) := grab2 rest
      let (dy, _) := grab2 r1
      some ([a, b, c, d], m, dy)
    else none
  | _ => none

/-- Consume one optional slash, as the `/?` pieces of `_DATE_PATH_REGEXP`
do. -/
def skipSlash : Path → Path
  | '/' :: r => r
  | r => r

/-- Try `_DATE_PATH_REGEXP`, i.e. `(dddd)/(dd)?/?(dd)?/?.*`, anchored
at the head of the string.  Unmatched optional groups are reported as `none`,
exactly as `match.groups()` without a default argument reports them. -/
def tryDatePathAt : Path → Option (Path × Option Path × Option Path)
  | a :: b :: c :: d :: e :: rest =>
    if a.isDigit && b.isDigit && c.isDigit && d.isDigit && e = '/' then
      let (m, r1) := grab2 rest
      let (dy, _) := grab2 (skipSlash r1)
      some ([a, b, c, d],
        (if m = [] then none else some m),
        (if dy = [] then none else some dy))
    else none
  | _ => none

/-- `_DATE_PATH_REGEXP.search(path).groups()`: the leftmost position where
four digits are followed by a slash, with the optional month and day groups
read from there. -/
def datePathSearch : Path → Option (Path × Option Path × Option Path)
  | [] => none
  | c :: cs =>
    match tryDatePathAt (c :: cs) with
    | some r => some r
    | none => datePathSearch cs

/-- `_GENFILES_REGEXP.match(f)`, i.e. `(index\.html$)|(lib/.*)$` anchored at
the start of the string (`$` also matches just before one trailing
newline). -/
def genfilesMatch (f : Path) : Bool :=
  (f = ("index.html").data ∨ f = ("index.html\n").data)
  ∨ ((("lib/").data.isPrefixOf f)
      ∧ (let r := f.drop 4
         (if r.getLast? = some '\n' then r.dropLast else r).all (fun c => c ≠ '\n')))

/-! ## The parts of `datetime` the source uses -/

/-- Gregorian leap-year test. -/
def isLeap (y : Nat) : Bool := y % 4 = 0 && (y % 100 ≠ 0 || y % 400 = 0)

/-- Number of days of month `m` of year `y`. -/
def daysInMonth (y m : Nat) : Nat :=
  if m = 2 then (if isLeap y then 29 else 28)
  else if m ∈ [4, 6, 9, 11] then 30 else 31

/-- Days in the months of year `y` strictly before month `m`. -/
def daysBeforeMonth (y m : Nat) : Nat :=
  ((List.range (m - 1)).map (fun i => daysInMonth y (i + 1))).sum

/-- Days in all years strictly before year `y` of the proleptic Gregorian
calendar. -/
def daysBeforeYear (y : Nat) : Nat :=
  (y - 1) * 365 + (y - 1) / 4 - (y - 1) / 100 + (y - 1) / 400

/-- `datetime._ymd2ord`: proleptic Gregorian ordinal of a date, with
January 1 of year 1 as day 1. -/
def ymd2ord (y m d : Nat) : Nat := daysBeforeYear y + daysBeforeMonth y m + d

/-- `datetime._isoweek1monday`: ordinal of the Monday starting ISO week 1 of
year `y`. -/
def isoweek1monday (y : Nat) : Int :=
  let firstday : Int := ymd2ord y 1 1
  let firstweekday : Int := (firstday + 6) % 7
  let week1monday := firstday - firstweekday
  if firstweekday > 3 then week1monday + 7 else week1monday

/-- `date(y, m, d).isocalendar()[1]`: the ISO week number of a date. -/
def isoWeek (y m d : Nat) : Nat :=
  let today : Int := ymd2ord y m d
  let week := (today - isoweek1monday y).fdiv 7
  if week < 0 then ((today - isoweek1monday (y - 1)).fdiv 7 + 1).toNat
  else if week ≥ 52 ∧ today ≥ isoweek1monday (y + 1) then 1
  else (week + 1).toNat

/-- `date.strftime("%B")` in the C locale: the English month name. -/
def monthName (m : Nat) : Path :=
  match m with
  | 1 => ("January").data
  | 2 => ("February").data
  | 3 => ("March").data
  | 4 => ("April").data
  | 5 => ("May").data
  | 6 => ("June").data
  | 7 => ("July").data
  | 8 => ("August").data
  | 9 => ("September").data
  | 10 => ("October").data
  | 11 => ("November").data
  | 12 => ("December").data
  | _ => []

/-- The Python exceptions the embedded code can raise. -/
inductive PyErr
  | typeError
  | valueError
deriving DecidableEq, Repr

/-- `datetime.strptime(s, "%Y%m%d")` on the digit strings the module feeds
it: an eight-digit string parses to its year, month and day if they denote a
valid date of years 1..9999, every other string raises `ValueError`. -/
def strptimeYmd (s : Path) : Except PyErr (Nat × Nat × Nat) :=
  if s.length = 8 ∧ s.all Char.isDigit then
    let y := digitsToNat (s.take 4)
    let m := digitsToNat ((s.drop 4).take 2)
    let d := digitsToNat (s.drop 6)
    if 1 ≤ y ∧ 1 ≤ m ∧ m ≤ 12 ∧ 1 ≤ d ∧ d ≤ daysInMonth y m then Except.ok (y, m, d)
    else Except.error PyErr.valueError
  else Except.error PyErr.valueError

/-! ## `organize_notes` -/

/-- Destination the relocation step computes for a note: `os.path.join` of
the directory, the three date groups of the note's basename (empty groups
contribute only a slash), and the basename.  The `none` branch keeps the
function total; `organize_notes` only applies it to files whose basename
matches. -/
def noteDest (directory note : Path) : Path :=
  match dateMatch (basename note) with
  | some (y, m, d) => pjoin (pjoin (pjoin (pjoin directory y) m) d) (basename note)
  | none => note

/-- One iteration of the relocation loop of `organize_notes`: extend the
output list with the destination, and record a move when the current path
differs from the destination (`os.renames` is the recorded move). -/
def organizeStep (directory : Path) (st : List Path × List (Path × Path)) (note : Path) :
    List Path × List (Path × Path) :=
  let dst := noteDest directory note
  (st.1 ++ [dst], if note ≠ dst then st.2 ++ [(note, dst)] else st.2)

/-- `organize_notes(directory)` over the file list that `listfiles` would
enumerate (directory walking is an external effect).  Returns the list of
final note paths, the list of other files, and the list of moves the run
performs. -/
def organize_notes (directory : Path) (all_files : List Path) :
    List Path × List Path × List (Path × Path) :=
  let notes := all_files.filter (fun f => (dateMatch (basename f)).isSome)
  let others := (all_files.filter
      (fun f => ¬ notes.contains f ∧ ¬ genfilesMatch f)).map (fun f => pjoin directory f)
  let r := notes.foldl (organizeStep directory) ([], [])
  (r.1, others, r.2)

/-! ## `wait_for_all` and `compile_markdown` -/

/-- A launched conversion process, keyed (as in the source's `running`
dictionary) by its full invocation string.  `doneAt` is the number of polling
sleeps after which `proc.poll()` stops returning `None`, and `retcode` is the
exit code it then reports. -/
structure Job where
  key : Path
  doneAt : Nat
  retcode : Int
deriving DecidableEq, Repr

/-- One polling sweep over the live set at sleep-count `clock`: the first job
whose `poll()` result is no longer `None`, together with the remaining live
set. -/
def sweep (clock : Nat) : List Job → Option (Job × List Job)
  | [] => none
  | j :: js =>
    if j.doneAt ≤ clock then some (j, js)
    else
      match sweep clock js with
      | some (k, rest) => some (k, j :: rest)
      | none => none

/-- Observable events of the polling loop: a job exiting and being removed
from the live set (with its exit code, nonzero codes being reported to
stderr), or a `time.sleep(delay)`. -/
inductive SchedEvent
  | exited (key : Path) (retcode : Int)
  | slept
deriving DecidableEq, Repr

/-- Sum of the polls still owed at sleep-count `clock`: one unit per live
job plus the sleeps remaining until each job's completion; an upper bound on
the remaining iterations of the polling loop. -/
def waMeasure (running : List Job) (clock : Nat) : Nat :=
  running.length + (running.map (fun j => j.doneAt - clock)).sum

/-- The polling loop of `wait_for_all`, written with an explicit iteration
bound (`wait_for_all` passes a provably sufficient one): repeatedly sweep the
live set; when a job has exited, report a nonzero code, delete it from the
set and restart the sweep; when a full sweep finds nothing, sleep and retry;
stop once the set is empty.  The value is the trace of observable events. -/
def waitLoop : Nat → List Job → Nat → List SchedEvent
  | 0, _, _ => []
  | fuel + 1, running, clock =>
    match running with
    | [] => []
    | a :: l =>
      match sweep clock (a :: l) with
      | some (j, rest) => SchedEvent.exited j.key j.retcode :: waitLoop fuel rest clock
      | none => SchedEvent.slept :: waitLoop fuel (a :: l) (clock + 1)

/-- `wait_for_all(running, delay)` as called by `compile_markdown` (no
callback).  The call blocks until the live set is empty; its observable
behaviour is the returned event trace. -/
def wait_for_all (running : List Job) (clock : Nat) : List SchedEvent :=
  waitLoop (waMeasure running clock + 1) running clock

/-- Replace the value at a key of the `running` dictionary, or append a new
binding (Python dict assignment; iteration order is modelled as insertion
order). -/
def upsert (k : Path) (j : Job) : List (Path × Job) → List (Path × Job)
  | [] => [(k, j)]
  | e :: es => if e.1 = k then (k, j) :: es else e :: upsert k j es

/-- `out[out.index(mkd)] = html`: overwrite the first occurrence of a value
in a list.  `list.index` cannot fail at the call site (the value was taken
from the list), so the missing-value case is modelled as a no-op. -/
def replaceFirst (l : List Path) (a b : Path) : List Path :=
  match l with
  | [] => []
  | x :: xs => if x = a then b :: xs else x :: replaceFirst xs a b

/-- `os.path.splitext(mkd)[0] + ".html"`: the computed output filename of a
conversion job. -/
def htmlName (mkd : Path) : Path := (splitext mkd).1 ++ (".html").data

/-- One iteration of the launch loop of `compile_markdown`: compute the
output name, launch the job (its completion behaviour comes from the
oracle), insert it into the live dictionary under its invocation string, and
substitute the output name for the first occurrence of the source name in
the output list. -/
def compileStep (cmd_args : List Path) (doneAt : Path → Nat) (retcode : Path → Int)
    (st : List Path × List (Path × Job)) (mkd : Path) : List Path × List (Path × Job) :=
  let key := joinSpaces (cmd_args ++ [pquote mkd])
  (replaceFirst st.1 mkd (htmlName mkd), upsert key ⟨key, doneAt key, retcode key⟩ st.2)

/-- `compile_markdown(files, markdown_ext, markdown_cmd, delay)`.  Process
launching is external: `doneAt` and `retcode` give each invocation its
completion time and exit code.  Returns the output file list and the polling
trace of `wait_for_all`. -/
def compile_markdown (files : List Path) (markdown_ext markdown_cmd : Path)
    (doneAt : Path → Nat) (retcode : Path → Int) : List Path × List SchedEvent :=
  let md_files := files.filter (fun f => (splitext f).2 = markdown_ext)
  let cmd_args := shlexSplit markdown_cmd
  let r := md_files.foldl (compileStep cmd_args doneAt retcode) (files, [])
  (r.1, wait_for_all (r.2.map (fun e => e.2)) 0)

/-! ## `index_data` -/

/-- Sort key of a `_Group`: Python 2 compares an `int` key as smaller than
any `str` key, two `str` keys lexicographically, and two `int` keys
numerically. -/
inductive GKey
  | ks (v : Path)
  | ki (v : Nat)
deriving DecidableEq, Repr

/-- Python 2 `<` on the occurring key values. -/
def keyLt : GKey → GKey → Bool
  | GKey.ki a, GKey.ki b => a < b
  | GKey.ki _, GKey.ks _ => true
  | GKey.ks _, GKey.ki _ => false
  | GKey.ks a, GKey.ks b => strLt a b

/-- Python 2 `<=` on key values, as a sort derives it from `__lt__`. -/
def keyLe (a b : GKey) : Bool := !(keyLt b a)

/-- `_Note`: name and path (relative to the index's directory) of a note. -/
structure Note where
  name : Path
  path : Path
deriving DecidableEq, Repr

/-- `_Group`: sort key, identifier, list of notes, and children dictionary
(label to group, in insertion order). -/
structure Group where
  key : GKey
  identifier : Path
  notes : List Note
  children : List (Path × Group)

instance : Inhabited Group := ⟨⟨GKey.ks [], [], [], []⟩⟩

/-- The label of the synthetic catch-all group. -/
def othersLabel : Path := ("Other notes").data

/-- The sentinel sort key of the catch-all group. -/
def zzzz : Path := ("zzzz").data

/-- The top-level dictionary of `index_data`: labels to groups, in insertion
order. -/
abbrev TopDict := List (Path × Group)

/-- Update the group stored at a label of a dictionary (no-op when the label
is absent; callers establish presence first, as the source does). -/
def dictUpd (k : Path) (f : Group → Group) : TopDict → TopDict
  | [] => []
  | e :: es => if e.1 = k then (e.1, f e.2) :: es else e :: dictUpd k f es

/-- Membership test of a label in a dictionary (`year not in groups`). -/
def dictMem (k : Path) (d : TopDict) : Bool := d.any (fun e => e.1 = k)

/-- `group.notes.append(info)`. -/
def appendNote (info : Note) (g : Group) : Group :=
  { g with notes := g.notes ++ [info] }

/-- Append a note to the notes list of a child group. -/
def appendChildNote (child : Path) (info : Note) (g : Group) : Group :=
  { g with children := dictUpd child (appendNote info) g.children }

/-- Add a new child group under a label (Python dict assignment on a fresh
key). -/
def addChild (child : Path) (c : Group) (g : Group) : Group :=
  { g with children := g.children ++ [(child, c)] }

/-- Membership test of a child label. -/
def childMem (child : Path) (g : Group) : Bool := g.children.any (fun e => e.1 = child)

/-- `nice_month not in groups[year].children`, negated: membership of a child
label under a top-level label. -/
def childMemD (y child : Path) (d : TopDict) : Bool :=
  d.any (fun e => e.1 = y ∧ childMem child e.2)

/-- The non-strict orders used by the source's three sort calls, as `Prop`
relations for `List.insertionSort`. -/
def NoteLeP (a b : Note) : Prop := strLe a.name b.name = true

instance : DecidableRel NoteLeP :=
  fun a b => inferInstanceAs (Decidable (strLe a.name b.name = true))

/-- Key order on dictionary entries (`key=lambda t: t[1].key`). -/
def EntryLeP (a b : Path × Group) : Prop := keyLe a.2.key b.2.key = true

instance : DecidableRel EntryLeP :=
  fun a b => inferInstanceAs (Decidable (keyLe a.2.key b.2.key = true))

/-- `_Group.sort`: order the children dictionary by each child's key and the
notes by name.  CPython's `sorted`/`list.sort` are stable; they are modelled
by the (equally stable) insertion sort. -/
def groupSort (g : Group) : Group :=
  { g with
    children := List.insertionSort EntryLeP g.children,
    notes := List.insertionSort NoteLeP g.notes }

/-- `sorted(groups.items(), key=lambda t: t[1].key, reverse=True)`: CPython
implements `reverse=True` by reversing the list before and after a stable
ascending sort. -/
def pySortedRev (d : TopDict) : TopDict :=
  (List.insertionSort EntryLeP d.reverse).reverse

/-- One iteration of the grouping loop of `index_data` over one path.
Follows the source line by line: build the `_Note`, search the path pattern,
concatenate the groups for `strptime` (`str + None` raises `TypeError` when
a group did not participate, before the guards for empty groups can run),
ensure the year group, and attach the note at the place the depth
selects. -/
def indexStep (directory depth : Path) (d : TopDict) (note : Path) :
    Except PyErr TopDict :=
  let info : Note := ⟨basename note, relpath note directory⟩
  match datePathSearch note with
  | none => Except.ok (dictUpd othersLabel (appendNote info) d)
  | some (y, mo, dayo) =>
    match mo, dayo with
    | some m, some dy =>
      match strptimeYmd (y ++ m ++ dy) with
      | Except.error e => Except.error e
      | Except.ok (yy, mm, dd) =>
        let d1 := if dictMem y d then d else d ++ [(y, ⟨GKey.ks y, y, [], []⟩)]
        if depth = ("year").data ∨ m = [] ∨ (dy = [] ∧ depth = ("week").data) then
          Except.ok (dictUpd y (appendNote info) d1)
        else if depth = ("month").data then
          let nice := monthName mm
          let d2 := if childMemD y nice d1 then d1
            else dictUpd y (addChild nice ⟨GKey.ks m, y ++ m, [], []⟩) d1
          Except.ok (dictUpd y (appendChildNote nice info) d2)
        else if depth = ("week").data then
          let w := isoWeek yy mm dd
          let ws := Nat.toDigits 10 w
          let d2 := if childMemD y ws d1 then d1
            else dictUpd y (addChild ws ⟨GKey.ki w, y ++ ws, [], []⟩) d1
          Except.ok (dictUpd y (appendChildNote ws info) d2)
        else
          Except.ok d1
    | _, _ => Except.error PyErr.typeError

/-- `index_data(notes, directory, depth)`: fold the grouping loop over the
paths starting from the dictionary holding the catch-all group, then order
the top level descending by key and run each top-level group's own
`sort`. -/
def index_data (notes : List Path) (directory depth : Path) :
    Except PyErr TopDict := do
  let init : TopDict := [(othersLabel, ⟨GKey.ks zzzz, ("other").data, [], []⟩)]
  let d ← notes.foldlM (indexStep directory depth) init
  pure ((pySortedRev d).map (fun e => (e.1, groupSort e.2)))

/-- Number of notes stored in a two-level group tree (the trees `index_data`
builds have no grandchildren; the companion invariant
`noGrandchildren` states this). -/
def notesCount (d : TopDict) : Nat :=
  (d.map (fun e => e.2.notes.length + (e.2.children.map (fun c => c.2.notes.length)).sum)).sum

/-- Every child group of every top-level group is a leaf. -/
def noGrandchildren (d : TopDict) : Bool :=
  d.all (fun e => e.2.children.all (fun c => c.2.children.isEmpty))

/-- Look up a top-level group by its label. -/
def topEntry (d : TopDict) (l : Path) : Option Group :=
  (d.find? (fun e => decide (e.1 = l))).map (fun e => e.2)

/-- Look up a child group by its label. -/
def childEntry (g : Group) (l : Path) : Option Group :=
  (g.children.find? (fun e => decide (e.1 = l))).map (fun e => e.2)

/-- The labels of the top-level groups, in final order. -/
def topLabels (d : TopDict) : List Path := d.map (fun e => e.1)

/-- The sort keys of the top-level groups, in final order. -/
def topKeys (d : TopDict) : List GKey := d.map (fun e => e.2.key)

/-- The top-level dictionary produced by the run refuting claim C1 (one
dated path, depth `year`). -/
def c1Groups : TopDict :=
  (index_data [("2023/06/15/x.md").data] ((".").data) (("year").data)).toOption.getD []

/-- The top-level dictionary produced by the run refuting claim C8 (two
notes of one month, inserted in anti-lexicographic order, depth `month`). -/
def c8Groups : TopDict :=
  (index_data [("2023/06/15/zz.md").data, ("2023/06/15/aa.md").data]
    ((".").data) (("month").data)).toOption.getD []

/-- Spec-side description of the month group: the two characters after the
year when they are two digits, else empty ("the leading 4/2/2-digit groups,
with month and day empty when absent"). -/
def specMonth (s : Path) : Path :=
  if ((s.drop 4).take 2).length = 2 ∧ ((s.drop 4).take 2).all Char.isDigit
  then (s.drop 4).take 2 else []

/-- Spec-side description of the day group: the two digits after the month
group, else empty. -/
def specDay (s : Path) : Path :=
  let r := s.drop (4 + (specMonth s).length)
  if (r.take 2).length = 2 ∧ (r.take 2).all Char.isDigit then r.take 2 else []

/-- Spec-side match condition of the filename date pattern: the name starts
with four digits. -/
def matchCond (s : Path) : Bool :=
  decide (4 ≤ s.length) && (s.take 4).all Char.isDigit

/-- Checker semantics of one removal event: remove the first live job that
has completed, provided its key and exit code are the reported ones. -/
def removeFirstCompleted (clock : Nat) (k : Path) (rc : Int) : List Job → Option (List Job)
  | [] => none
  | j :: js =>
    if j.doneAt ≤ clock ∧ j.key = k ∧ j.retcode = rc then some js
    else (removeFirstCompleted clock k rc js).map (fun r => j :: r)

/-- Validity of a polling trace against a live set: every `exited` event
names the first live job to have completed and removes it, every `slept`
event happens while no live job has completed, and the trace ends with the
live set empty. -/
def checkRun (clock : Nat) (running : List Job) : List SchedEvent → Bool
  | [] => running.isEmpty
  | SchedEvent.exited k rc :: evs =>
    match removeFirstCompleted clock k rc running with
    | some rest => checkRun clock rest evs
    | none => false
  | SchedEvent.slept :: evs =>
    running.all (fun j => decide (clock < j.doneAt)) && checkRun (clock + 1) running evs

/-- The keys drained by a polling trace, in drain order. -/
def exitedKeys (evs : List SchedEvent) : List Path :=
  evs.filterMap (fun e =>
    match e with
    | SchedEvent.exited k _ => some k
    | SchedEvent.slept => none)

/-- A path carrying a full date: the path pattern matches with both month
and day groups present and `strptime` accepts the concatenated digits. -/
def fullDated (p : Path) : Bool :=
  match datePathSearch p with
  | some (y, some m, some dy) => (strptimeYmd (y ++ m ++ dy)).isOk
  | _ => false

/-- The year group label a matching path is filed under. -/
def pathYear (p : Path) : Path :=
  match datePathSearch p with
  | some (y, _, _) => y
  | none => []

/-- Structural invariant of the top-level dictionary during the grouping
fold: labels are unique, the catch-all label is present, and every entry is
either the catch-all (key `"zzzz"`) or a year entry whose key is its own
4-digit label. -/
def TopInv (d : TopDict) : Prop :=
  (d.map (fun e => e.1)).Nodup
  ∧ othersLabel ∈ d.map (fun e => e.1)
  ∧ ∀ e ∈ d, (e.1 = othersLabel ∧ e.2.key = GKey.ks zzzz)
      ∨ (e.2.key = GKey.ks e.1 ∧ e.1.length = 4 ∧ e.1.all Char.isDigit = true)

/-- Input paths (with a duplicate) of the counting witness. -/
def c4Paths : List Path :=
  [("2023/06/15/x.md").data, ("2023/06/15/x.md").data, ("readme.txt").data]

/-- The tree the counting witness builds. -/
def c4Groups : TopDict :=
  (index_data (c4Paths.dedup) ((".").data) (("month").data)).toOption.getD []

/-- Fully dated input paths of the dropped-note witness. -/
def c10Paths : List Path := [("2023/06/15/x.md").data, ("2024/01/02/y.md").data]

/-- The tree the dropped-note witness builds (depth `day`). -/
def c10Groups : TopDict :=
  (index_data c10Paths ((".").data) (("day").data)).toOption.getD []

/-! ## Theorems -/

/-- C3 (code_bug evidence): a path that matches the date-in-path pattern but
has no month group makes `index_data` raise `TypeError`: `match.groups()`
yields `None` for the month, and `year + month + day` is evaluated for
`strptime` before any of the guards that were meant to handle the missing
groups can run.  The claim's attach-under-the-year behaviour never
happens. -/
theorem index_data_month_none_raises :
    index_data [("2023/abc.txt").data] ((".").data) (("month").data)
      = Except.error PyErr.typeError := by
  rfl

/-- C7 (code_bug evidence): on directory `notes` holding the artifacts of a
previous run (`notes/index.html`, `notes/lib/jquery.min.js`) and a dated file
under `lib/`, `organize_notes` returns both artifacts in its "others" list
(re-rooted, hence the doubled prefix) and relocates the dated `lib/` file:
`_GENFILES_REGEXP` is anchored at the start of the string, and walked paths
start with the directory name, so the exclusion never fires; the dated-notes
partition never consults it at all. -/
theorem organize_notes_genfiles_not_excluded :
    organize_notes (("notes").data)
      [("notes/lib/jquery.min.js").data, ("notes/index.html").data,
        ("notes/lib/20230101x.txt").data]
    = ([("notes/2023/01/01/20230101x.txt").data],
       [("notes/notes/lib/jquery.min.js").data, ("notes/notes/index.html").data],
       [(("notes/lib/20230101x.txt").data, ("notes/2023/01/01/20230101x.txt").data)]) := by
  rfl

/-- Helper for C6: a relocation fold over notes whose destination equals
their current path records no moves. -/
theorem organizeFold_no_moves (directory : Path) (ns : List Path)
    (out : List Path) (mv : List (Path × Path))
    (h : ∀ n ∈ ns, noteDest directory n = n) :
    (ns.foldl (organizeStep directory) (out, mv)).2 = mv := by
  induction ns generalizing out mv with
  | nil => rfl
  | cons n ns ih =>
    have hn := h n (List.mem_cons_self n ns)
    simp only [List.foldl_cons, organizeStep, hn, ne_eq, not_true_eq_false, if_false]
    exact ih (out ++ [n]) mv (fun x hx => h x (List.mem_cons_of_mem n hx))

/-- C6: relocation is idempotent.  When every dated note of the scanned file
list already lies at its computed canonical destination, `organize_notes`
performs no move. -/
theorem organize_notes_idempotent (directory : Path) (all_files : List Path)
    (h : ∀ f ∈ all_files, (dateMatch (basename f)).isSome = true →
      noteDest directory f = f) :
    (organize_notes directory all_files).2.2 = [] := by
  simp only [organize_notes]
  apply organizeFold_no_moves
  intro n hn
  have := List.of_mem_filter hn
  exact h n (List.mem_of_mem_filter hn) (by simpa using this)

/-- Witness for C6 at a concrete organized directory. -/
theorem organize_notes_idempotent_witness :
    (∀ f ∈ [("d/2023/06/15/20230615-plan.md").data],
      (dateMatch (basename f)).isSome = true → noteDest (("d").data) f = f)
    ∧ (organize_notes (("d").data) [("d/2023/06/15/20230615-plan.md").data]).2.2 = [] := by
  refine ⟨by decide, organize_notes_idempotent _ _ (by decide)⟩

/-- C1 counterexample: with one dated path and depth `year`, the descending
top-level sort puts the sentinel key `"zzzz"` of "Other notes" first, so the
sentinel group is the first top-level entry and the year group is the last —
"Other notes" is not the last top-level entry. -/
theorem other_notes_sorts_first :
    index_data [("2023/06/15/x.md").data] ((".").data) (("year").data)
      = Except.ok c1Groups
    ∧ topLabels c1Groups = [othersLabel, ("2023").data]
    ∧ (topLabels c1Groups).getLast? = some (("2023").data)
    ∧ ¬ (topLabels c1Groups).getLast? = some othersLabel := by
  refine ⟨rfl, rfl, rfl, by decide⟩

/-- C2 counterexample: a matching file whose conversion job exits with code 1
(the oracle gives every invocation exit code 1) still has the computed output
name substituted at its index: the substitution happens at launch, before any
exit code exists. -/
theorem failed_job_still_substituted :
    (compile_markdown [("doc.md").data] ((".md").data) (("mdc").data)
      (fun _ => 0) (fun _ => 1)).1 = [("doc.html").data]
    ∧ ¬ [("doc.html").data] = [("doc.md").data] := by
  refine ⟨rfl, by decide⟩

/-- C8 counterexample: two notes of the same month inserted in
anti-lexicographic order stay in insertion order inside the month child
group: `_Group.sort` runs only on the top-level groups, never on their
children, so the nested notes list is not sorted by name. -/
theorem nested_notes_not_sorted :
    index_data [("2023/06/15/zz.md").data, ("2023/06/15/aa.md").data]
      ((".").data) (("month").data) = Except.ok c8Groups
    ∧ ((topEntry c8Groups (("2023").data)).bind
        (fun g => childEntry g (("June").data))).map (fun g => g.notes.map (fun n => n.name))
      = some [("zz.md").data, ("aa.md").data]
    ∧ strLe (("zz.md").data) (("aa.md").data) = false := by
  refine ⟨rfl, rfl, by decide⟩

/-- The first component of `grab2` is the spec-side optional two-digit
group. -/
theorem grab2_fst_spec (r : Path) :
    (grab2 r).1 = if (r.take 2).length = 2 ∧ (r.take 2).all Char.isDigit
      then r.take 2 else [] := by
  match r with
  | [] => rfl
  | [x] => simp [grab2]
  | x :: y :: rr =>
    by_cases hx : x.isDigit <;> by_cases hy : y.isDigit <;>
      simp [grab2, hx, hy]

/-- The second component of `grab2` drops exactly the extracted group. -/
theorem grab2_snd_spec (r : Path) :
    (grab2 r).2 = r.drop ((grab2 r).1).length := by
  match r with
  | [] => rfl
  | [x] => simp [grab2]
  | x :: y :: rr =>
    by_cases hx : x.isDigit <;> by_cases hy : y.isDigit <;>
      simp [grab2, hx, hy]

/-- On names satisfying the match condition, `dateMatch` extracts exactly the
leading 4/2/2-digit groups; on other names it reports no match. -/
theorem dateMatch_spec (s : Path) :
    (matchCond s = true → dateMatch s = some (s.take 4, specMonth s, specDay s))
    ∧ (matchCond s = false → dateMatch s = none) := by
  match s with
  | [] => exact ⟨fun h => by simp [matchCond] at h, fun _ => rfl⟩
  | [a] => exact ⟨fun h => by simp [matchCond] at h, fun _ => rfl⟩
  | [a, b] => exact ⟨fun h => by simp [matchCond] at h, fun _ => rfl⟩
  | [a, b, c] => exact ⟨fun h => by simp [matchCond] at h, fun _ => rfl⟩
  | a :: b :: c :: d :: rest =>
    have hmc : matchCond (a :: b :: c :: d :: rest)
        = (a.isDigit && b.isDigit && c.isDigit && d.isDigit) := by
      simp [matchCond, List.all_cons, Bool.and_assoc]
    have hm : specMonth (a :: b :: c :: d :: rest) = (grab2 rest).1 := by
      simp only [specMonth, grab2_fst_spec]
      rfl
    have hdrop : ∀ (k : Nat),
        List.drop (4 + k) (a :: b :: c :: d :: rest) = List.drop k rest := by
      intro k
      rw [Nat.add_comm]
      rfl
    have hdy : specDay (a :: b :: c :: d :: rest) = (grab2 ((grab2 rest).2)).1 := by
      simp only [specDay, hm, grab2_fst_spec, grab2_snd_spec, hdrop]
    constructor
    · intro h
      rw [hmc] at h
      simp only [dateMatch, h, if_true, hm, hdy]
      rfl
    · intro h
      rw [hmc] at h
      simp [dateMatch, h]

/-- A basename contains no slash. -/
theorem slash_not_mem_basename (p : Path) : '/' ∉ basename p := by
  intro h
  simp only [basename, List.mem_reverse] at h
  have := List.mem_takeWhile_imp h
  simp at this

/-- `takeWhile` passes over a block whose elements all satisfy the
predicate. -/
theorem takeWhile_all_append (q : Char → Bool) (l1 l2 : Path)
    (h : ∀ x ∈ l1, q x = true) :
    (l1 ++ l2).takeWhile q = l1 ++ l2.takeWhile q := by
  induction l1 with
  | nil => simp
  | cons a l ih =>
    have ha := h a (List.mem_cons_self a l)
    simp only [List.cons_append, List.takeWhile_cons, ha, if_true]
    rw [ih (fun x hx => h x (List.mem_cons_of_mem a hx))]

/-- A slash-free path is its own basename. -/
theorem basename_no_slash (s : Path) (hs : '/' ∉ s) : basename s = s := by
  have htk : s.reverse.takeWhile (fun c => decide (c ≠ '/')) = s.reverse := by
    rw [List.takeWhile_eq_self_iff]
    intro x hx
    simp only [decide_eq_true_eq]
    intro hxe
    exact hs (by simpa [hxe] using (List.mem_reverse.mp hx))
  show (s.reverse.takeWhile (fun c => decide (c ≠ '/'))).reverse = s
  rw [htk, List.reverse_reverse]

/-- The basename after appending a slash and a slash-free name is that
name. -/
theorem basename_append_sep (X s : Path) (hs : '/' ∉ s) :
    basename (X ++ '/' :: s) = s := by
  have hall : ∀ x ∈ s.reverse, (fun c => decide (c ≠ '/')) x = true := by
    intro x hx
    simp only [decide_eq_true_eq]
    intro hxe
    exact hs (by simpa [hxe] using (List.mem_reverse.mp hx))
  have hrev : (X ++ '/' :: s).reverse = s.reverse ++ '/' :: X.reverse := by
    simp [List.reverse_append]
  have := takeWhile_all_append (fun c => decide (c ≠ '/')) s.reverse ('/' :: X.reverse) hall
  simp only [basename, hrev, this, List.takeWhile_cons, decide_eq_true_eq]
  simp

/-- The basename is preserved by `os.path.join` onto a nonempty, slash-free
final component. -/
theorem basename_pjoin (X s : Path) (hs : '/' ∉ s) (hne : s ≠ []) :
    basename (pjoin X s) = s := by
  have hhead : ¬ s.head? = some '/' := by
    cases s with
    | nil => simp at hne
    | cons c cs =>
      simp only [List.head?_cons, Option.some.injEq]
      intro hc
      exact hs (by simp [hc])
  simp only [pjoin, hhead, if_false]
  by_cases hx : X = [] ∨ X.getLast? = some '/'
  · simp only [hx, if_true]
    rcases hx with hx | hx
    · subst hx
      simpa using basename_no_slash s hs
    · have hXne : X ≠ [] := by
        intro he
        rw [he] at hx
        simp at hx
      have hXeq : X.dropLast ++ ['/'] = X := by
        have hlast : X.getLast hXne = '/' := by
          have := List.getLast?_eq_getLast X hXne
          rw [this] at hx
          exact (Option.some.injEq _ _).mp hx
        rw [← hlast]
        exact List.dropLast_append_getLast hXne
      rw [← hXeq, List.append_assoc]
      exact basename_append_sep _ _ hs
  · simp only [hx, if_false]
    exact basename_append_sep _ _ hs

/-- C5: path classification is total and extracts exactly the leading
4/2/2-digit groups.  A basename starting with four digits classifies to the
year and the (possibly empty) month and day digit groups, every other
basename classifies as not dated, and re-classifying the basename of the
relocated path (the `os.path.join` of directory, date groups and basename)
yields the same result. -/
theorem classification_total_idempotent (p directory : Path) :
    (matchCond (basename p) = true →
      dateMatch (basename p)
        = some ((basename p).take 4, specMonth (basename p), specDay (basename p))
      ∧ dateMatch (basename (noteDest directory p)) = dateMatch (basename p))
    ∧ (matchCond (basename p) = false → dateMatch (basename p) = none) := by
  refine ⟨fun h => ⟨(dateMatch_spec _).1 h, ?_⟩, (dateMatch_spec _).2⟩
  have hsome := (dateMatch_spec (basename p)).1 h
  have hne : basename p ≠ [] := by
    intro he
    rw [he] at h
    simp [matchCond] at h
  have hslash := slash_not_mem_basename p
  simp only [noteDest, hsome]
  rw [basename_pjoin _ _ hslash hne]
  exact hsome

/-- Witness for C5 at a concrete dated filename. -/
theorem classification_witness :
    matchCond (basename (("a/20230615x.md").data)) = true
    ∧ dateMatch (basename (noteDest (("d").data) (("a/20230615x.md").data)))
      = dateMatch (basename (("a/20230615x.md").data)) := by
  exact ⟨by decide,
    ((classification_total_idempotent (("a/20230615x.md").data) (("d").data)).1
      (by decide)).2⟩

/-- A successful sweep returns a permutation split of the live set. -/
theorem sweep_some_perm (clock : Nat) (l : List Job) (j : Job) (rest : List Job)
    (h : sweep clock l = some (j, rest)) : l.Perm (j :: rest) := by
  induction l generalizing rest with
  | nil => simp [sweep] at h
  | cons a as ih =>
    by_cases ha : a.doneAt ≤ clock
    · simp only [sweep, ha, if_true, Option.some.injEq, Prod.mk.injEq] at h
      obtain ⟨h1, h2⟩ := h
      subst h1
      subst h2
      exact List.Perm.refl _
    · simp only [sweep, ha, if_false] at h
      cases hs : sweep clock as with
      | none => rw [hs] at h; exact Option.noConfusion h
      | some pr =>
        obtain ⟨k, rest0⟩ := pr
        rw [hs] at h
        simp only [Option.some.injEq, Prod.mk.injEq] at h
        obtain ⟨h1, h2⟩ := h
        subst h1
        subst h2
        exact (List.Perm.cons a (ih rest0 hs)).trans (List.Perm.swap _ _ _)

/-- The swept-out job has completed. -/
theorem sweep_some_done (clock : Nat) (l : List Job) (j : Job) (rest : List Job)
    (h : sweep clock l = some (j, rest)) : j.doneAt ≤ clock := by
  induction l generalizing rest with
  | nil => simp [sweep] at h
  | cons a as ih =>
    by_cases ha : a.doneAt ≤ clock
    · simp only [sweep, ha, if_true, Option.some.injEq, Prod.mk.injEq] at h
      obtain ⟨h1, h2⟩ := h
      subst h1
      exact ha
    · simp only [sweep, ha, if_false] at h
      cases hs : sweep clock as with
      | none => rw [hs] at h; exact Option.noConfusion h
      | some pr =>
        obtain ⟨k, rest0⟩ := pr
        rw [hs] at h
        simp only [Option.some.injEq, Prod.mk.injEq] at h
        obtain ⟨h1, h2⟩ := h
        subst h1
        exact ih rest0 hs

/-- An empty sweep means no live job has completed. -/
theorem sweep_none_mem (clock : Nat) (l : List Job)
    (h : sweep clock l = none) : ∀ j ∈ l, clock < j.doneAt := by
  induction l with
  | nil => intro j hj; cases hj
  | cons a as ih =>
    intro j hj
    by_cases ha : a.doneAt ≤ clock
    · simp [sweep, ha] at h
    · cases hs : sweep clock as with
      | none =>
        cases hj with
        | head => omega
        | tail _ hmem => exact ih hs j hmem
      | some pr =>
        obtain ⟨k, rest0⟩ := pr
        simp only [sweep, ha, if_false, hs] at h
        exact Option.noConfusion h

/-- A removal strictly shrinks the loop's iteration bound. -/
theorem waMeasure_sweep_some (clock : Nat) (l : List Job) (j : Job) (rest : List Job)
    (h : sweep clock l = some (j, rest)) : waMeasure rest clock < waMeasure l clock := by
  have hp := sweep_some_perm clock l j rest h
  have hlen : l.length = rest.length + 1 := by
    have := hp.length_eq
    simpa using this
  have hsum : ((l.map (fun j => j.doneAt - clock)).sum : Nat)
      = (j.doneAt - clock) + (rest.map (fun j => j.doneAt - clock)).sum := by
    have := (hp.map (fun j => j.doneAt - clock)).sum_eq
    simpa using this
  simp only [waMeasure, hlen, hsum]
  omega

/-- A sleep strictly shrinks the loop's iteration bound. -/
theorem waMeasure_sweep_none (clock : Nat) (a : Job) (l : List Job)
    (h : sweep clock (a :: l) = none) :
    waMeasure (a :: l) (clock + 1) < waMeasure (a :: l) clock := by
  have hall := sweep_none_mem clock (a :: l) h
  have hstep : ∀ m : List Job, (∀ j ∈ m, clock < j.doneAt) →
      (m.map (fun j => j.doneAt - (clock + 1))).sum + m.length
        = (m.map (fun j => j.doneAt - clock)).sum := by
    intro m
    induction m with
    | nil => intro _; simp
    | cons b bs ih =>
      intro hm
      have hb := hm b (List.mem_cons_self b bs)
      have hbs := ih (fun j hj => hm j (List.mem_cons_of_mem b hj))
      simp only [List.map_cons, List.sum_cons, List.length_cons]
      omega
  have hsum := hstep (a :: l) hall
  simp only [waMeasure]
  have hlen : 0 < (a :: l).length := by simp
  omega

/-- The checker accepts the job the sweep found, removing the same
remainder. -/
theorem sweep_removeFirstCompleted (clock : Nat) (l : List Job) (j : Job) (rest : List Job)
    (h : sweep clock l = some (j, rest)) :
    removeFirstCompleted clock j.key j.retcode l = some rest := by
  induction l generalizing rest with
  | nil => simp [sweep] at h
  | cons a as ih =>
    by_cases ha : a.doneAt ≤ clock
    · simp only [sweep, ha, if_true, Option.some.injEq, Prod.mk.injEq] at h
      obtain ⟨h1, h2⟩ := h
      subst h1
      subst h2
      simp [removeFirstCompleted, ha]
    · simp only [sweep, ha, if_false] at h
      cases hs : sweep clock as with
      | none => rw [hs] at h; exact Option.noConfusion h
      | some pr =>
        obtain ⟨k, rest0⟩ := pr
        rw [hs] at h
        simp only [Option.some.injEq, Prod.mk.injEq] at h
        obtain ⟨h1, h2⟩ := h
        subst h1
        subst h2
        have hcond : ¬ (a.doneAt ≤ clock ∧ a.key = k.key ∧ a.retcode = k.retcode) := by
          intro hc
          exact ha hc.1
        simp only [removeFirstCompleted, ih rest0 hs]
        rw [if_neg hcond]
        rfl

/-- With sufficient fuel, the polling loop's trace is accepted by the
checker. -/
theorem waitLoop_checkRun (fuel : Nat) :
    ∀ (running : List Job) (clock : Nat), waMeasure running clock < fuel →
      checkRun clock running (waitLoop fuel running clock) = true := by
  induction fuel with
  | zero => intro running clock hf; omega
  | succ fuel ih =>
    intro running clock hf
    match running with
    | [] => rfl
    | a :: l =>
      cases hs : sweep clock (a :: l) with
      | some pr =>
        obtain ⟨j, rest⟩ := pr
        have hrm := sweep_removeFirstCompleted clock (a :: l) j rest hs
        have hmeas := waMeasure_sweep_some clock (a :: l) j rest hs
        have hlt : waMeasure (a :: l) clock ≤ fuel := by omega
        simp only [waitLoop, hs, checkRun, hrm]
        exact ih rest clock (by omega)
      | none =>
        have hall := sweep_none_mem clock (a :: l) hs
        have hmeas := waMeasure_sweep_none clock a l hs
        simp only [waitLoop, hs, checkRun, Bool.and_eq_true]
        refine ⟨?_, ih (a :: l) (clock + 1) (by omega)⟩
        rw [List.all_eq_true]
        intro j hj
        simpa using hall j hj

/-- With sufficient fuel, the polling loop drains exactly the keys of the
live set. -/
theorem waitLoop_exitedKeys (fuel : Nat) :
    ∀ (running : List Job) (clock : Nat), waMeasure running clock < fuel →
      (exitedKeys (waitLoop fuel running clock)).Perm (running.map (fun j => j.key)) := by
  induction fuel with
  | zero => intro running clock hf; omega
  | succ fuel ih =>
    intro running clock hf
    match running with
    | [] => simp [waitLoop, exitedKeys]
    | a :: l =>
      cases hs : sweep clock (a :: l) with
      | some pr =>
        obtain ⟨j, rest⟩ := pr
        have hp := sweep_some_perm clock (a :: l) j rest hs
        have hmeas := waMeasure_sweep_some clock (a :: l) j rest hs
        simp only [waitLoop, hs, exitedKeys, List.filterMap_cons]
        have htail := ih rest clock (by omega)
        refine List.Perm.trans (List.Perm.cons j.key htail) ?_
        exact (hp.map (fun j => j.key)).symm
      | none =>
        have hmeas := waMeasure_sweep_none clock a l hs
        simp only [waitLoop, hs, exitedKeys, List.filterMap_cons]
        exact ih (a :: l) (clock + 1) (by omega)

/-- C9: the polling loop of `wait_for_all` produces a trace the run checker
accepts — every removal takes the first completed live job (exactly once),
every sleep happens only after a full sweep in which no job has exited, and
the loop ends only with an empty live set — and the multiset of drained keys
is exactly the multiset of keys of the initial live set. -/
theorem wait_for_all_drains (running : List Job) (clock : Nat) :
    checkRun clock running (wait_for_all running clock) = true
    ∧ (exitedKeys (wait_for_all running clock)).Perm (running.map (fun j => j.key)) :=
  ⟨waitLoop_checkRun _ running clock (Nat.lt_succ_self _),
   waitLoop_exitedKeys _ running clock (Nat.lt_succ_self _)⟩

/-- Reassembling the reversed take/drop decomposition of `splitext` around
the last dot recovers the path. -/
theorem rev_split_dot (p : Path)
    (h : ¬ (p.reverse.takeWhile (fun c => decide (c ≠ '.'))).length = p.reverse.length) :
    ((p.reverse.dropWhile (fun c => decide (c ≠ '.'))).drop 1).reverse
      ++ '.' :: (p.reverse.takeWhile (fun c => decide (c ≠ '.'))).reverse = p := by
  have hsplit := List.takeWhile_append_dropWhile (fun c => decide (c ≠ '.')) p.reverse
  have hne : p.reverse.dropWhile (fun c => decide (c ≠ '.')) ≠ [] := by
    intro he
    apply h
    rw [he, List.append_nil] at hsplit
    rw [hsplit]
  have hhead := List.head_dropWhile_not (fun c => decide (c ≠ '.')) p.reverse hne
  simp only [decide_eq_false_iff_not, not_not] at hhead
  have hcons : p.reverse.dropWhile (fun c => decide (c ≠ '.'))
      = '.' :: (p.reverse.dropWhile (fun c => decide (c ≠ '.'))).drop 1 := by
    conv_lhs => rw [← List.head_cons_tail _ hne]
    rw [hhead, List.drop_one]
  have : p = ((p.reverse.dropWhile (fun c => decide (c ≠ '.'))).drop 1).reverse
      ++ '.' :: (p.reverse.takeWhile (fun c => decide (c ≠ '.'))).reverse := by
    conv_lhs => rw [← List.reverse_reverse p, ← hsplit]
    rw [List.reverse_append]
    conv_lhs => rw [hcons]
    simp
  rw [← this]

/-- The root and extension of `splitext` concatenate back to the path. -/
theorem splitext_concat (p : Path) : (splitext p).1 ++ (splitext p).2 = p := by
  simp only [splitext]
  split_ifs with h1 h2 h3
  · simp
  · simp
  · simp
  · exact rev_split_dot p h1

/-- `splitext` either leaves the path whole with an empty extension, or
returns the dot-split of the reversed decomposition together with the
witness that the final segment has a non-dot character before the dot. -/
theorem splitext_cases (p : Path) :
    ((splitext p).2 = [] ∧ (splitext p).1 = p)
    ∨ (splitext p
        = (((p.reverse.dropWhile (fun c => decide (c ≠ '.'))).drop 1).reverse,
           '.' :: (p.reverse.takeWhile (fun c => decide (c ≠ '.'))).reverse)
       ∧ ¬ (((p.reverse.dropWhile (fun c => decide (c ≠ '.'))).drop 1).takeWhile
            (fun c => decide (c ≠ '/'))).all (fun c => decide (c = '.')) = true) := by
  simp only [splitext]
  split_ifs with h1 h2 h3
  · exact Or.inl ⟨rfl, rfl⟩
  · exact Or.inl ⟨rfl, rfl⟩
  · exact Or.inl ⟨rfl, rfl⟩
  · exact Or.inr ⟨rfl, h3⟩

/-- Appending `.html` to the root of a path that had an extension yields a
path whose extension is exactly `.html` and whose root is unchanged. -/
theorem splitext_htmlName (g : Path) (hne : (splitext g).2 ≠ []) :
    splitext (htmlName g) = ((splitext g).1, (".html").data) := by
  rcases splitext_cases g with ⟨h0, _⟩ | ⟨heq, hcond⟩
  · exact absurd h0 hne
  · simp only [htmlName, heq]
    have hrev : ((((g.reverse.dropWhile (fun c => decide (c ≠ '.'))).drop 1).reverse
        ++ (".html").data)).reverse
        = 'l' :: 'm' :: 't' :: 'h' :: '.'
            :: ((g.reverse.dropWhile (fun c => decide (c ≠ '.'))).drop 1) := by
      rw [List.reverse_append, List.reverse_reverse]
      rfl
    simp only [splitext, hrev]
    have htw : List.takeWhile (fun c => decide (c ≠ '.'))
        ('l' :: 'm' :: 't' :: 'h' :: '.'
          :: ((g.reverse.dropWhile (fun c => decide (c ≠ '.'))).drop 1))
        = ['l', 'm', 't', 'h'] := rfl
    have hdw : List.dropWhile (fun c => decide (c ≠ '.'))
        ('l' :: 'm' :: 't' :: 'h' :: '.'
          :: ((g.reverse.dropWhile (fun c => decide (c ≠ '.'))).drop 1))
        = '.' :: ((g.reverse.dropWhile (fun c => decide (c ≠ '.'))).drop 1) := rfl
    rw [htw, hdw]
    have hA : ¬ (['l', 'm', 't', 'h'] : Path).length
        = ('l' :: 'm' :: 't' :: 'h' :: '.'
            :: ((g.reverse.dropWhile (fun c => decide (c ≠ '.'))).drop 1)).length := by
      simp
    rw [if_neg hA]
    have hB : ¬ (['l', 'm', 't', 'h'] : Path).contains '/' = true := by decide
    rw [if_neg hB]
    have hdrop : List.drop 1 ('.' :: ((g.reverse.dropWhile (fun c => decide (c ≠ '.'))).drop 1))
        = (g.reverse.dropWhile (fun c => decide (c ≠ '.'))).drop 1 := rfl
    rw [hdrop]
    rw [if_neg hcond]
    rfl

/-- Replacing an occurrence of a value by itself changes nothing. -/
theorem replaceFirst_self (l : List Path) (a : Path) : replaceFirst l a a = l := by
  induction l with
  | nil => rfl
  | cons x xs ih =>
    by_cases hx : x = a
    · subst hx
      simp [replaceFirst]
    · simp [replaceFirst, hx, ih]

/-- `replaceFirst` skips a head that is not the sought value. -/
theorem replaceFirst_cons_ne (x : Path) (xs : List Path) (a b : Path) (h : ¬ x = a) :
    replaceFirst (x :: xs) a b = x :: replaceFirst xs a b := by
  simp [replaceFirst, h]

/-- The output-list component of the launch fold ignores the job
dictionary. -/
theorem compileFold_fst (cmd_args : List Path) (doneAt : Path → Nat) (retcode : Path → Int)
    (mds : List Path) : ∀ (out : List Path) (run : List (Path × Job)),
    (mds.foldl (compileStep cmd_args doneAt retcode) (out, run)).1
      = mds.foldl (fun o mkd => replaceFirst o mkd (htmlName mkd)) out := by
  induction mds with
  | nil => intro out run; rfl
  | cons m ms ih =>
    intro out run
    simp only [List.foldl_cons, compileStep]
    exact ih _ _

/-- The substitution fold passes over a head none of the processed names
equals. -/
theorem compileLoopFst_skip (mds : List Path) : ∀ (h : Path) (out : List Path),
    (∀ mkd ∈ mds, mkd ≠ h) →
    mds.foldl (fun o mkd => replaceFirst o mkd (htmlName mkd)) (h :: out)
      = h :: mds.foldl (fun o mkd => replaceFirst o mkd (htmlName mkd)) out := by
  induction mds with
  | nil => intro h out _; rfl
  | cons m ms ih =>
    intro h out hne
    simp only [List.foldl_cons]
    rw [replaceFirst_cons_ne h out m (htmlName m)
      (fun he => hne m (List.mem_cons_self m ms) he.symm)]
    exact ih h _ (fun k hk => hne k (List.mem_cons_of_mem m hk))

/-- The substitution fold is the identity when every processed name maps to
itself. -/
theorem compileLoopFst_id (mds : List Path) : ∀ (out : List Path),
    (∀ mkd ∈ mds, htmlName mkd = mkd) →
    mds.foldl (fun o mkd => replaceFirst o mkd (htmlName mkd)) out = out := by
  induction mds with
  | nil => intro out _; rfl
  | cons m ms ih =>
    intro out hid
    simp only [List.foldl_cons, hid m (List.mem_cons_self m ms), replaceFirst_self]
    exact ih out (fun k hk => hid k (List.mem_cons_of_mem m hk))

/-- A path whose extension is `.html` is its own computed output name. -/
theorem htmlName_id (f : Path) (h : (splitext f).2 = (".html").data) :
    htmlName f = f := by
  unfold htmlName
  rw [← h]
  exact splitext_concat f

/-- A pointwise-identity map is the identity. -/
theorem map_id_of_mem (l : List Path) (f : Path → Path) (h : ∀ x ∈ l, f x = x) :
    l.map f = l := by
  induction l with
  | nil => rfl
  | cons x xs ih =>
    simp only [List.map_cons, h x (List.mem_cons_self x xs)]
    rw [ih (fun k hk => h k (List.mem_cons_of_mem x hk))]

/-- C2 (amended): `compile_markdown` substitutes the computed output name at
the position of every file whose extension matches, for every completion
oracle — hence regardless of the jobs' exit codes, which the output list
never consults. -/
theorem compile_markdown_substitutes (files : List Path) (ext cmd : Path)
    (doneAt : Path → Nat) (retcode : Path → Int) (hext : ext ≠ []) :
    (compile_markdown files ext cmd doneAt retcode).1
      = files.map (fun f => if (splitext f).2 = ext then htmlName f else f) := by
  simp only [compile_markdown]
  rw [compileFold_fst]
  by_cases hhtml : ext = (".html").data
  · subst hhtml
    rw [compileLoopFst_id]
    · symm
      apply map_id_of_mem
      intro x _
      by_cases hx : (splitext x).2 = (".html").data
      · simp only [hx, if_true]
        exact htmlName_id x hx
      · simp [hx]
    · intro mkd hmk
      have := (List.mem_filter.mp hmk).2
      exact htmlName_id mkd (by simpa using this)
  · induction files with
    | nil => rfl
    | cons f fs ih =>
      by_cases hf : (splitext f).2 = ext
      · rw [List.filter_cons_of_pos (by simpa using hf)]
        simp only [List.foldl_cons]
        rw [show replaceFirst (f :: fs) f (htmlName f) = htmlName f :: fs from by
          simp [replaceFirst]]
        rw [compileLoopFst_skip]
        · rw [ih]
          simp [hf]
        · intro mkd hmk heq
          have hmkext : (splitext mkd).2 = ext := by
            simpa using (List.mem_filter.mp hmk).2
          have hfe : (splitext f).2 ≠ [] := by
            rw [hf]; exact hext
          have : (splitext mkd).2 = (".html").data := by
            rw [heq, splitext_htmlName f hfe]
          exact hhtml (by rw [← hmkext, this])
      · rw [List.filter_cons_of_neg (by simpa using hf)]
        rw [compileLoopFst_skip]
        · rw [ih]
          simp [hf]
        · intro mkd hmk heq
          have hmkext : (splitext mkd).2 = ext := by
            simpa using (List.mem_filter.mp hmk).2
          rw [heq] at hmkext
          exact hf hmkext

/-- Witness for the amended C2 at a concrete file list with a failing
oracle. -/
theorem compile_markdown_substitutes_witness :
    ((".md").data ≠ ([] : Path))
    ∧ (compile_markdown [("doc.md").data, ("readme.txt").data] ((".md").data)
        (("mdc").data) (fun _ => 0) (fun _ => 1)).1
      = [("doc.html").data, ("readme.txt").data] := by
  refine ⟨by decide, ?_⟩
  rw [compile_markdown_substitutes _ _ _ _ _ (by decide)]
  rfl

/-- `strLt` is irreflexive. -/
theorem strLt_irrefl (s : Path) : strLt s s = false := by
  induction s with
  | nil => rfl
  | cons a as ih => simp [strLt, ih]

/-- `strLt` is transitive. -/
theorem strLt_trans (a : Path) : ∀ (b c : Path),
    strLt a b = true → strLt b c = true → strLt a c = true := by
  induction a with
  | nil =>
    intro b c h1 h2
    cases b with
    | nil => simp [strLt] at h1
    | cons bb bs =>
      cases c with
      | nil => simp [strLt] at h2
      | cons cc cs => simp [strLt]
  | cons aa as ih =>
    intro b c h1 h2
    cases b with
    | nil => simp [strLt] at h1
    | cons bb bs =>
      cases c with
      | nil => simp [strLt] at h2
      | cons cc cs =>
        simp only [strLt] at h1 h2 ⊢
        rcases lt_trichotomy aa bb with hab | hab | hab
        · rcases lt_trichotomy bb cc with hbc | hbc | hbc
          · simp [lt_trans hab hbc]
          · subst hbc
            simp [hab]
          · rw [if_neg (asymm hbc), if_pos hbc] at h2
            exact absurd h2 (by simp)
        · subst hab
          rw [if_neg (lt_irrefl aa), if_neg (lt_irrefl aa)] at h1
          rcases lt_trichotomy aa cc with hac | hac | hac
          · simp [hac]
          · subst hac
            rw [if_neg (lt_irrefl aa), if_neg (lt_irrefl aa)] at h2 ⊢
            exact ih bs cs h1 h2
          · rw [if_neg (asymm hac), if_pos hac] at h2
            exact absurd h2 (by simp)
        · rw [if_neg (asymm hab), if_pos hab] at h1
          exact absurd h1 (by simp)

/-- Two different strings compare in one direction or the other. -/
theorem strLt_connex (a : Path) : ∀ (b : Path), a ≠ b →
    strLt a b = true ∨ strLt b a = true := by
  induction a with
  | nil =>
    intro b hne
    cases b with
    | nil => exact absurd rfl hne
    | cons bb bs => left; simp [strLt]
  | cons aa as ih =>
    intro b hne
    cases b with
    | nil => right; simp [strLt]
    | cons bb bs =>
      rcases lt_trichotomy aa bb with hab | hab | hab
      · left; simp [strLt, hab]
      · subst hab
        have hne2 : as ≠ bs := by
          intro he
          exact hne (by rw [he])
        rcases ih bs hne2 with hlt | hlt
        · left
          simp [strLt, lt_irrefl, hlt]
        · right
          simp [strLt, lt_irrefl, hlt]
      · right; simp [strLt, hab]

/-- `keyLt` is irreflexive. -/
theorem keyLt_irrefl (k : GKey) : keyLt k k = false := by
  cases k with
  | ks v => simp [keyLt, strLt_irrefl]
  | ki v => simp [keyLt]

/-- `keyLt` is transitive. -/
theorem keyLt_trans (a b c : GKey) :
    keyLt a b = true → keyLt b c = true → keyLt a c = true := by
  cases a <;> cases b <;> cases c <;> simp [keyLt]
  · exact strLt_trans _ _ _
  · omega

/-- Two different keys compare in one direction or the other. -/
theorem keyLt_connex (a b : GKey) (h : a ≠ b) :
    keyLt a b = true ∨ keyLt b a = true := by
  cases a with
  | ks va =>
    cases b with
    | ks vb =>
      have hne : va ≠ vb := by
        intro he
        exact h (by rw [he])
      simpa [keyLt] using strLt_connex va vb hne
    | ki vb => right; simp [keyLt]
  | ki va =>
    cases b with
    | ks vb => left; simp [keyLt]
    | ki vb =>
      have hne : va ≠ vb := by
        intro he
        exact h (by rw [he])
      simp [keyLt]
      omega

/-- `keyLe` is total. -/
theorem keyLe_total (a b : GKey) : keyLe a b = true ∨ keyLe b a = true := by
  simp only [keyLe, Bool.not_eq_true']
  rcases Bool.eq_false_or_eq_true (keyLt b a) with h1 | h1
  · rcases Bool.eq_false_or_eq_true (keyLt a b) with h2 | h2
    · have := keyLt_trans a b a h2 h1
      rw [keyLt_irrefl] at this
      exact absurd this (by simp)
    · right
      exact h2
  · left
    exact h1

/-- `keyLe` is transitive. -/
theorem keyLe_trans (a b c : GKey)
    (h1 : keyLe a b = true) (h2 : keyLe b c = true) : keyLe a c = true := by
  simp only [keyLe, Bool.not_eq_true'] at h1 h2 ⊢
  rcases Bool.eq_false_or_eq_true (keyLt c a) with h3 | h3
  case inr => exact h3
  · by_cases hbc : b = c
    · subst hbc
      rw [h3] at h1
      exact absurd h1 (by simp)
    · rcases keyLt_connex b c hbc with hx | hx
      · have := keyLt_trans b c a hx h3
        rw [this] at h1
        exact absurd h1 (by simp)
      · rw [hx] at h2
        exact absurd h2 (by simp)

/-- Non-strict follows from unequal plus non-strict-in-reverse: upgrade a
`keyLe` edge between distinct keys to strict `keyLt`. -/
theorem keyLt_of_keyLe_ne (a b : GKey) (hle : keyLe a b = true) (hne : a ≠ b) :
    keyLt a b = true := by
  simp only [keyLe, Bool.not_eq_true'] at hle
  rcases keyLt_connex a b hne with hx | hx
  · exact hx
  · rw [hx] at hle
    exact absurd hle (by simp)

/-- `strLe` is total. -/
theorem strLe_total (a b : Path) : strLe a b = true ∨ strLe b a = true := by
  simp only [strLe, Bool.not_eq_true']
  rcases Bool.eq_false_or_eq_true (strLt b a) with h1 | h1
  · rcases Bool.eq_false_or_eq_true (strLt a b) with h2 | h2
    · have := strLt_trans a b a h2 h1
      rw [strLt_irrefl] at this
      exact absurd this (by simp)
    · right
      exact h2
  · left
    exact h1

/-- `strLe` is transitive. -/
theorem strLe_trans (a b c : Path)
    (h1 : strLe a b = true) (h2 : strLe b c = true) : strLe a c = true := by
  simp only [strLe, Bool.not_eq_true'] at h1 h2 ⊢
  rcases Bool.eq_false_or_eq_true (strLt c a) with h3 | h3
  case inr => exact h3
  · by_cases hbc : b = c
    · subst hbc
      rw [h3] at h1
      exact absurd h1 (by simp)
    · rcases strLt_connex b c hbc with hx | hx
      · have := strLt_trans b c a hx h3
        rw [this] at h1
        exact absurd h1 (by simp)
      · rw [hx] at h2
        exact absurd h2 (by simp)

/-- The children sort of `_Group.sort` produces an ascending-by-key pairwise
ordered list. -/
theorem sorted_entry_insertionSort (l : List (Path × Group)) :
    (List.insertionSort EntryLeP l).Pairwise EntryLeP := by
  haveI : IsTotal (Path × Group) EntryLeP := ⟨fun a b => keyLe_total a.2.key b.2.key⟩
  haveI : IsTrans (Path × Group) EntryLeP :=
    ⟨fun a b c h1 h2 => keyLe_trans a.2.key b.2.key c.2.key h1 h2⟩
  exact List.sorted_insertionSort EntryLeP l

/-- The entry sort permutes its input. -/
theorem perm_entry_insertionSort (l : List (Path × Group)) :
    (List.insertionSort EntryLeP l).Perm l :=
  List.perm_insertionSort EntryLeP l

/-- The notes sort of `_Group.sort` produces a lexicographically ordered
pairwise list. -/
theorem sorted_note_insertionSort (l : List Note) :
    (List.insertionSort NoteLeP l).Pairwise NoteLeP := by
  haveI : IsTotal Note NoteLeP := ⟨fun a b => strLe_total a.name b.name⟩
  haveI : IsTrans Note NoteLeP :=
    ⟨fun a b c h1 h2 => strLe_trans a.name b.name c.name h1 h2⟩
  exact List.sorted_insertionSort NoteLeP l

/-- The notes sort permutes its input. -/
theorem perm_note_insertionSort (l : List Note) :
    (List.insertionSort NoteLeP l).Perm l :=
  List.perm_insertionSort NoteLeP l

/-- Split `index_data`'s result into the folded dictionary and the final
ordering pass. -/
theorem index_data_eq (notes : List Path) (directory depth : Path) (gs : TopDict)
    (h : index_data notes directory depth = Except.ok gs) :
    ∃ d : TopDict,
      notes.foldlM (indexStep directory depth)
        [(othersLabel, ⟨GKey.ks zzzz, ("other").data, [], []⟩)] = Except.ok d
      ∧ gs = (pySortedRev d).map (fun e => (e.1, groupSort e.2)) := by
  simp only [index_data] at h
  cases hfold : notes.foldlM (indexStep directory depth)
      [(othersLabel, ⟨GKey.ks zzzz, ("other").data, [], []⟩)] with
  | error e =>
    rw [hfold] at h
    simp only [Bind.bind, Except.bind] at h
    exact absurd h (by simp)
  | ok d =>
    rw [hfold] at h
    simp only [Bind.bind, Except.bind, pure, Except.pure, Except.ok.injEq] at h
    exact ⟨d, rfl, h.symm⟩

/-- C8 (amended): every top-level group of the returned tree has its
children pairwise ascending by each child's sort key and its own notes
pairwise ascending by name (the nested groups' notes keep insertion order,
as the counterexample shows, because `_Group.sort` runs only at the top
level). -/
theorem top_groups_finalized (notes : List Path) (directory depth : Path) (gs : TopDict)
    (h : index_data notes directory depth = Except.ok gs) :
    ∀ e ∈ gs,
      (e.2.children.map (fun c => c.2.key)).Pairwise (fun a b => keyLe a b = true)
      ∧ (e.2.notes.map (fun n => n.name)).Pairwise (fun a b => strLe a b = true) := by
  obtain ⟨d, _, hgs⟩ := index_data_eq notes directory depth gs h
  subst hgs
  intro e he
  obtain ⟨e0, _, he0⟩ := List.mem_map.mp he
  rw [← he0]
  constructor
  · rw [List.pairwise_map]
    exact sorted_entry_insertionSort e0.2.children
  · rw [List.pairwise_map]
    exact sorted_note_insertionSort e0.2.notes

/-- Witness for the amended C8 at a concrete month-depth run. -/
theorem top_groups_finalized_witness :
    index_data [("2023/06/15/zz.md").data, ("2023/06/15/aa.md").data]
      ((".").data) (("month").data) = Except.ok c8Groups
    ∧ ∀ e ∈ c8Groups,
      (e.2.children.map (fun c => c.2.key)).Pairwise (fun a b => keyLe a b = true)
      ∧ (e.2.notes.map (fun n => n.name)).Pairwise (fun a b => strLe a b = true) :=
  ⟨rfl, top_groups_finalized [("2023/06/15/zz.md").data, ("2023/06/15/aa.md").data]
    ((".").data) (("month").data) c8Groups rfl⟩

/-- `dictUpd` keeps the label sequence. -/
theorem dictUpd_map_fst (k : Path) (f : Group → Group) : ∀ (d : TopDict),
    (dictUpd k f d).map (fun e => e.1) = d.map (fun e => e.1) := by
  intro d
  induction d with
  | nil => rfl
  | cons e es ih =>
    by_cases he : e.1 = k
    · simp [dictUpd, he]
    · simp [dictUpd, he, ih]

/-- `dictMem` is label membership. -/
theorem dictMem_iff (k : Path) (d : TopDict) :
    dictMem k d = true ↔ k ∈ d.map (fun e => e.1) := by
  simp only [dictMem, List.any_eq_true, List.mem_map, decide_eq_true_eq]

/-- Each entry after a key-preserving update has the label and key of an
original entry. -/
theorem dictUpd_key_inv (k : Path) (f : Group → Group) (hf : ∀ g, (f g).key = g.key) :
    ∀ (d : TopDict) (e : Path × Group), e ∈ dictUpd k f d →
      ∃ e0 ∈ d, e.1 = e0.1 ∧ e.2.key = e0.2.key := by
  intro d
  induction d with
  | nil => intro e he; cases he
  | cons x xs ih =>
    intro e he
    by_cases hx : x.1 = k
    · simp only [dictUpd] at he
      rw [if_pos hx] at he
      cases he with
      | head => exact ⟨x, List.mem_cons_self x xs, rfl, hf x.2⟩
      | tail _ hmem => exact ⟨e, List.mem_cons_of_mem x hmem, rfl, rfl⟩
    · simp only [dictUpd] at he
      rw [if_neg hx] at he
      cases he with
      | head => exact ⟨x, List.mem_cons_self x xs, rfl, rfl⟩
      | tail _ hmem =>
        obtain ⟨e0, he0, h1, h2⟩ := ih e hmem
        exact ⟨e0, List.mem_cons_of_mem x he0, h1, h2⟩

/-- `notesCount` adds over concatenation. -/
theorem notesCount_append (d1 d2 : TopDict) :
    notesCount (d1 ++ d2) = notesCount d1 + notesCount d2 := by
  simp [notesCount]

/-- Appending a note to a present label adds one to the count. -/
theorem notesCount_dictUpd_appendNote (k : Path) (info : Note) : ∀ (d : TopDict),
    dictMem k d = true →
    notesCount (dictUpd k (appendNote info) d) = notesCount d + 1 := by
  intro d
  induction d with
  | nil => intro h; simp [dictMem] at h
  | cons e es ih =>
    intro h
    by_cases he : e.1 = k
    · simp only [dictUpd]
      rw [if_pos he]
      simp only [notesCount, List.map_cons, List.sum_cons, appendNote, List.length_append,
        List.length_cons, List.length_nil]
      omega
    · have h2 : dictMem k es = true := by
        simp only [dictMem, List.any_cons, Bool.or_eq_true, decide_eq_true_eq] at h
        rcases h with h | h
        · exact absurd h he
        · exact h
      simp only [dictUpd, he, if_false, notesCount, List.map_cons, List.sum_cons]
      have := ih h2
      simp only [notesCount] at this
      omega

/-- Appending a note to a present child label adds one to the child notes
sum. -/
theorem childSum_dictUpd_appendNote (nm : Path) (info : Note) :
    ∀ (ch : List (Path × Group)), ch.any (fun e => decide (e.1 = nm)) = true →
    ((dictUpd nm (appendNote info) ch).map (fun c => c.2.notes.length)).sum
      = ((ch.map (fun c => c.2.notes.length)).sum) + 1 := by
  intro ch
  induction ch with
  | nil => intro h; simp at h
  | cons e es ih =>
    intro h
    by_cases he : e.1 = nm
    · simp only [dictUpd]
      rw [if_pos he]
      simp only [List.map_cons, List.sum_cons, appendNote, List.length_append,
        List.length_cons, List.length_nil]
      omega
    · have h2 : es.any (fun e => decide (e.1 = nm)) = true := by
        simp only [List.any_cons, Bool.or_eq_true, decide_eq_true_eq] at h
        rcases h with h | h
        · exact absurd h he
        · exact h
      simp only [dictUpd, he, if_false, List.map_cons, List.sum_cons, ih h2]
      omega

/-- Appending a note to a present child of a present label (labels unique)
adds one to the count. -/
theorem notesCount_dictUpd_appendChildNote (y nm : Path) (info : Note) :
    ∀ (d : TopDict), (d.map (fun e => e.1)).Nodup → childMemD y nm d = true →
    notesCount (dictUpd y (appendChildNote nm info) d) = notesCount d + 1 := by
  intro d
  induction d with
  | nil => intro _ h; simp [childMemD] at h
  | cons e es ih =>
    intro hnd h
    by_cases he : e.1 = y
    · have hwit : childMem nm e.2 = true := by
        simp only [childMemD, List.any_cons, Bool.or_eq_true, decide_eq_true_eq] at h
        rcases h with ⟨_, hc⟩ | h
        · exact hc
        · exfalso
          rcases List.any_eq_true.mp h with ⟨ew, hew, hcond⟩
          rw [decide_eq_true_eq] at hcond
          have hy : y ∈ es.map (fun e => e.1) :=
            List.mem_map.mpr ⟨ew, hew, hcond.1⟩
          rw [List.map_cons, List.nodup_cons] at hnd
          exact hnd.1 (he ▸ hy)
      simp only [dictUpd]
      rw [if_pos he]
      simp only [notesCount, List.map_cons, List.sum_cons, appendChildNote]
      have hsum := childSum_dictUpd_appendNote nm info e.2.children hwit
      omega
    · have h2 : childMemD y nm es = true := by
        simp only [childMemD, List.any_cons, Bool.or_eq_true, decide_eq_true_eq] at h
        rcases h with ⟨h1, _⟩ | h
        · exact absurd h1 he
        · exact h
      have hnd2 : (es.map (fun e => e.1)).Nodup := by
        rw [List.map_cons, List.nodup_cons] at hnd
        exact hnd.2
      simp only [dictUpd, he, if_false, notesCount, List.map_cons, List.sum_cons]
      have := ih hnd2 h2
      simp only [notesCount] at this
      omega

/-- After adding a child under a present label, the child is present under
that label. -/
theorem childMemD_dictUpd_addChild (y nm : Path) (c : Group) :
    ∀ (d : TopDict), dictMem y d = true →
    childMemD y nm (dictUpd y (addChild nm c) d) = true := by
  intro d
  induction d with
  | nil => intro h; simp [dictMem] at h
  | cons e es ih =>
    intro h
    by_cases he : e.1 = y
    · simp only [dictUpd]
      rw [if_pos he]
      simp only [childMemD, List.any_cons, Bool.or_eq_true, decide_eq_true_eq]
      left
      refine ⟨he, ?_⟩
      simp [childMem, addChild, List.any_append]
    · have h2 : dictMem y es = true := by
        simp only [dictMem, List.any_cons, Bool.or_eq_true, decide_eq_true_eq] at h
        rcases h with h | h
        · exact absurd h he
        · exact h
      simp only [dictUpd, he, if_false, childMemD, List.any_cons, Bool.or_eq_true]
      right
      exact ih h2

/-- A key-compatible update preserves the absence of grandchildren. -/
theorem noGrandchildren_dictUpd (k : Path) (f : Group → Group)
    (hf : ∀ g, g.children.all (fun c => c.2.children.isEmpty) = true →
      (f g).children.all (fun c => c.2.children.isEmpty) = true) :
    ∀ (d : TopDict), noGrandchildren d = true →
    noGrandchildren (dictUpd k f d) = true := by
  intro d
  induction d with
  | nil => intro h; exact h
  | cons e es ih =>
    intro h
    simp only [noGrandchildren, List.all_cons, Bool.and_eq_true] at h
    by_cases he : e.1 = k
    · simp only [dictUpd]
      rw [if_pos he]
      simp only [noGrandchildren, List.all_cons, Bool.and_eq_true]
      exact ⟨hf e.2 h.1, h.2⟩
    · simp only [dictUpd, he, if_false, noGrandchildren, List.all_cons, Bool.and_eq_true]
      refine ⟨h.1, ?_⟩
      exact ih h.2

/-- Appending a note to a child leaves every child a leaf. -/
theorem childrenLeaf_dictUpd_appendNote (nm : Path) (info : Note) :
    ∀ (ch : List (Path × Group)), ch.all (fun c => c.2.children.isEmpty) = true →
    (dictUpd nm (appendNote info) ch).all (fun c => c.2.children.isEmpty) = true := by
  intro ch
  induction ch with
  | nil => intro h; exact h
  | cons e es ih =>
    intro h
    simp only [List.all_cons, Bool.and_eq_true] at h
    by_cases he : e.1 = nm
    · simp only [dictUpd]
      rw [if_pos he]
      simp only [List.all_cons, Bool.and_eq_true, appendNote]
      exact ⟨h.1, h.2⟩
    · simp only [dictUpd, he, if_false, List.all_cons, Bool.and_eq_true]
      exact ⟨h.1, ih h.2⟩

/-- Shapes of the groups an anchored path-pattern match can produce: the
year is four digits and participating optional groups are nonempty. -/
theorem tryDatePathAt_shape (p : Path) (y : Path) (mo dy : Option Path)
    (h : tryDatePathAt p = some (y, mo, dy)) :
    y.length = 4 ∧ y.all Char.isDigit = true
    ∧ (∀ m, mo = some m → m ≠ []) ∧ (∀ d, dy = some d → d ≠ []) := by
  match p with
  | [] => simp [tryDatePathAt] at h
  | [a] => simp [tryDatePathAt] at h
  | [a, b] => simp [tryDatePathAt] at h
  | [a, b, c] => simp [tryDatePathAt] at h
  | [a, b, c, d] => simp [tryDatePathAt] at h
  | a :: b :: c :: d :: e :: rest =>
    simp only [tryDatePathAt] at h
    by_cases hc : (a.isDigit && b.isDigit && c.isDigit && d.isDigit && decide (e = '/')) = true
    · rw [if_pos hc] at h
      simp only [Option.some.injEq, Prod.mk.injEq] at h
      obtain ⟨hy, hmo, hdy⟩ := h
      simp only [Bool.and_eq_true] at hc
      refine ⟨by rw [← hy]; rfl, ?_, ?_, ?_⟩
      · rw [← hy]
        simp [List.all_cons, hc.1.1.1.1, hc.1.1.1.2, hc.1.1.2, hc.1.2]
      · intro m hm
        rw [← hmo] at hm
        split at hm
        · exact absurd hm (by simp)
        · rename_i hne2
          intro he
          rw [he] at hm
          simp only [Option.some.injEq] at hm
          exact hne2 hm
      · intro dd hd
        rw [← hdy] at hd
        split at hd
        · exact absurd hd (by simp)
        · rename_i hne2
          intro he
          rw [he] at hd
          simp only [Option.some.injEq] at hd
          exact hne2 hd
    · rw [if_neg hc] at h
      exact absurd h (by simp)

/-- Shapes of the groups the path-pattern search produces. -/
theorem datePathSearch_shape (p : Path) (y : Path) (mo dy : Option Path)
    (h : datePathSearch p = some (y, mo, dy)) :
    y.length = 4 ∧ y.all Char.isDigit = true
    ∧ (∀ m, mo = some m → m ≠ []) ∧ (∀ d, dy = some d → d ≠ []) := by
  induction p with
  | nil => simp [datePathSearch] at h
  | cons c cs ih =>
    simp only [datePathSearch] at h
    cases ht : tryDatePathAt (c :: cs) with
    | some r =>
      rw [ht] at h
      simp only [Option.some.injEq] at h
      obtain ⟨ry, rmo, rdy⟩ := r
      cases h
      exact tryDatePathAt_shape (c :: cs) y mo dy ht
    | none =>
      rw [ht] at h
      exact ih h

/-- A key-preserving update preserves the dictionary invariant. -/
theorem TopInv_dictUpd (k : Path) (f : Group → Group) (d : TopDict)
    (hf : ∀ g, (f g).key = g.key) (h : TopInv d) : TopInv (dictUpd k f d) := by
  obtain ⟨h1, h2, h3⟩ := h
  refine ⟨by rw [dictUpd_map_fst]; exact h1, by rw [dictUpd_map_fst]; exact h2, ?_⟩
  intro e he
  obtain ⟨e0, he0, hl, hk⟩ := dictUpd_key_inv k f hf d e he
  rcases h3 e0 he0 with ⟨ha, hb⟩ | ⟨ha, hb, hc⟩
  · left
    exact ⟨by rw [hl]; exact ha, by rw [hk]; exact hb⟩
  · right
    refine ⟨?_, by rw [hl]; exact hb, by rw [hl]; exact hc⟩
    rw [hk, ha, hl]

/-- An update that keeps each entry's note count keeps the total count. -/
theorem notesCount_dictUpd_preserve (k : Path) (f : Group → Group)
    (hf : ∀ g, (f g).notes.length + (((f g).children.map (fun c => c.2.notes.length)).sum)
      = g.notes.length + ((g.children.map (fun c => c.2.notes.length)).sum)) :
    ∀ (d : TopDict), notesCount (dictUpd k f d) = notesCount d := by
  intro d
  induction d with
  | nil => rfl
  | cons e es ih =>
    by_cases he : e.1 = k
    · simp only [dictUpd]
      rw [if_pos he]
      simp only [notesCount, List.map_cons, List.sum_cons]
      rw [hf e.2]
    · simp only [dictUpd, he, if_false, notesCount, List.map_cons, List.sum_cons]
      have := ih
      simp only [notesCount] at this
      omega

/-- The fresh-year extension of the fold's dictionary: invariant, counts,
labels and catch-all membership. -/
theorem ensureYear_props (d : TopDict) (y : Path)
    (hy4 : y.length = 4) (hyd : y.all Char.isDigit = true)
    (hinv : TopInv d) (hgc : noGrandchildren d = true) :
    TopInv (if dictMem y d then d else d ++ [(y, ⟨GKey.ks y, y, [], []⟩)])
    ∧ noGrandchildren (if dictMem y d then d else d ++ [(y, ⟨GKey.ks y, y, [], []⟩)]) = true
    ∧ notesCount (if dictMem y d then d else d ++ [(y, ⟨GKey.ks y, y, [], []⟩)]) = notesCount d
    ∧ (∀ l ∈ d.map (fun e => e.1),
        l ∈ (if dictMem y d then d else d ++ [(y, ⟨GKey.ks y, y, [], []⟩)]).map (fun e => e.1))
    ∧ dictMem y (if dictMem y d then d else d ++ [(y, ⟨GKey.ks y, y, [], []⟩)]) = true := by
  by_cases hym : dictMem y d = true
  · rw [if_pos hym]
    exact ⟨hinv, hgc, rfl, fun l hl => hl, hym⟩
  · rw [if_neg hym]
    obtain ⟨h1, h2, h3⟩ := hinv
    refine ⟨⟨?_, ?_, ?_⟩, ?_, ?_, ?_, ?_⟩
    · rw [List.map_append, List.nodup_append]
      refine ⟨h1, by simp, ?_⟩
      intro a ha hb
      simp only [List.map_cons, List.map_nil, List.mem_cons, List.not_mem_nil,
        or_false] at hb
      rw [hb] at ha
      exact hym ((dictMem_iff y d).mpr ha)
    · rw [List.map_append]
      exact List.mem_append_left _ h2
    · intro e he
      rcases List.mem_append.mp he with he | he
      · exact h3 e he
      · simp only [List.mem_cons, List.not_mem_nil, or_false] at he
        right
        rw [he]
        exact ⟨rfl, hy4, hyd⟩
    · simp only [noGrandchildren, List.all_append] at hgc ⊢
      simp [hgc]
    · rw [notesCount_append]
      simp [notesCount]
    · intro l hl
      rw [List.map_append]
      exact List.mem_append_left _ hl
    · rw [dictMem_iff, List.map_append]
      apply List.mem_append_right
      simp

/-- Attaching a note under a (created-on-first-use) child of a present year
entry: invariant, leaves, labels, and a count increment of one. -/
theorem attachChild_props (y nm : Path) (c : Group) (info : Note) (D1 : TopDict)
    (hcn : c.notes = []) (hcc : c.children = [])
    (hinv : TopInv D1) (hgc : noGrandchildren D1 = true) (hym : dictMem y D1 = true) :
    TopInv (dictUpd y (appendChildNote nm info)
      (if childMemD y nm D1 then D1 else dictUpd y (addChild nm c) D1))
    ∧ noGrandchildren (dictUpd y (appendChildNote nm info)
      (if childMemD y nm D1 then D1 else dictUpd y (addChild nm c) D1)) = true
    ∧ (dictUpd y (appendChildNote nm info)
      (if childMemD y nm D1 then D1 else dictUpd y (addChild nm c) D1)).map (fun e => e.1)
      = D1.map (fun e => e.1)
    ∧ notesCount (dictUpd y (appendChildNote nm info)
      (if childMemD y nm D1 then D1 else dictUpd y (addChild nm c) D1))
      = notesCount D1 + 1 := by
  by_cases hcm : childMemD y nm D1 = true
  · rw [if_pos hcm]
    exact ⟨TopInv_dictUpd _ _ _ (fun g => rfl) hinv,
      noGrandchildren_dictUpd _ _ (fun g hg => by
        simpa [appendChildNote] using
          childrenLeaf_dictUpd_appendNote nm info g.children hg) D1 hgc,
      dictUpd_map_fst _ _ D1,
      notesCount_dictUpd_appendChildNote y nm info D1 hinv.1 hcm⟩
  · rw [if_neg hcm]
    have hinv2 : TopInv (dictUpd y (addChild nm c) D1) :=
      TopInv_dictUpd _ _ _ (fun g => rfl) hinv
    have hgc2 : noGrandchildren (dictUpd y (addChild nm c) D1) = true :=
      noGrandchildren_dictUpd _ _ (fun g hg => by
        simp [addChild, List.all_append, hg, hcc]) D1 hgc
    have hcnt2 : notesCount (dictUpd y (addChild nm c) D1) = notesCount D1 :=
      notesCount_dictUpd_preserve _ _ (fun g => by simp [addChild, hcn]) D1
    have hmem2 : childMemD y nm (dictUpd y (addChild nm c) D1) = true :=
      childMemD_dictUpd_addChild y nm c D1 hym
    refine ⟨TopInv_dictUpd _ _ _ (fun g => rfl) hinv2,
      noGrandchildren_dictUpd _ _ (fun g hg => by
        simpa [appendChildNote] using
          childrenLeaf_dictUpd_appendNote nm info g.children hg) _ hgc2,
      ?_, ?_⟩
    · rw [dictUpd_map_fst, dictUpd_map_fst]
    · rw [notesCount_dictUpd_appendChildNote y nm info _ hinv2.1 hmem2, hcnt2]

/-- Combined step facts of the grouping loop: the invariant and the absence
of grandchildren are preserved, labels only grow, a depth among
year/month/week files the note somewhere (count rises by one), and any other
depth silently drops a fully dated path while still creating its year
group. -/
theorem indexStep_props (directory depth : Path) (d d2 : TopDict) (p : Path)
    (h : indexStep directory depth d p = Except.ok d2)
    (hinv : TopInv d) (hgc : noGrandchildren d = true) :
    TopInv d2 ∧ noGrandchildren d2 = true
    ∧ (∀ l ∈ d.map (fun e => e.1), l ∈ d2.map (fun e => e.1))
    ∧ ((depth = ("year").data ∨ depth = ("month").data ∨ depth = ("week").data) →
        notesCount d2 = notesCount d + 1)
    ∧ (¬ (depth = ("year").data ∨ depth = ("month").data ∨ depth = ("week").data) →
        fullDated p = true →
        notesCount d2 = notesCount d ∧ pathYear p ∈ d2.map (fun e => e.1)) := by
  simp only [indexStep] at h
  split at h
  · rename_i hsearch
    simp only [Except.ok.injEq] at h
    subst h
    refine ⟨TopInv_dictUpd _ _ _ (fun g => rfl) hinv, ?_, ?_, ?_, ?_⟩
    · exact noGrandchildren_dictUpd _ _ (fun g hg => by simpa [appendNote] using hg) d hgc
    · intro l hl
      rw [dictUpd_map_fst]
      exact hl
    · intro _
      exact notesCount_dictUpd_appendNote _ _ d ((dictMem_iff _ d).mpr hinv.2.1)
    · intro _ hfd
      simp only [fullDated, hsearch] at hfd
      exact absurd hfd (by simp)
  · rename_i y mo dayo hsearch
    split at h
    · rename_i m dy
      split at h
      · exact absurd h (by simp)
      · rename_i yy mm dd hst
        have hshape := datePathSearch_shape p y (some m) (some dy) hsearch
        have hm_ne : m ≠ [] := hshape.2.2.1 m rfl
        have hdy_ne : dy ≠ [] := hshape.2.2.2 dy rfl
        obtain ⟨hd1inv, hd1gc, hd1cnt, hd1mem, hd1ym⟩ :=
          ensureYear_props d y hshape.1 hshape.2.1 hinv hgc
        have hymem : pathYear p
            ∈ (if dictMem y d then d
                else d ++ [(y, ⟨GKey.ks y, y, [], []⟩)]).map (fun e => e.1) := by
          have := (dictMem_iff _ _).mp hd1ym
          simpa [pathYear, hsearch] using this
        split at h
        · rename_i hc1
          simp only [Except.ok.injEq] at h
          subst h
          refine ⟨TopInv_dictUpd _ _ _ (fun g => rfl) hd1inv, ?_, ?_, ?_, ?_⟩
          · exact noGrandchildren_dictUpd _ _
              (fun g hg => by simpa [appendNote] using hg) _ hd1gc
          · intro l hl
            rw [dictUpd_map_fst]
            exact hd1mem l hl
          · intro _
            rw [notesCount_dictUpd_appendNote _ _ _ hd1ym, hd1cnt]
          · intro hdep _
            exfalso
            rcases hc1 with hcc | hcc | hcc
            · exact hdep (Or.inl hcc)
            · exact hm_ne hcc
            · rcases hcc with ⟨hdy0, _⟩
              exact hdy_ne hdy0
        · rename_i hc1
          split at h
          · rename_i hc2
            simp only [Except.ok.injEq] at h
            subst h
            obtain ⟨hI, hG, hL, hC⟩ :=
              attachChild_props y (monthName mm) ⟨GKey.ks m, y ++ m, [], []⟩
                ⟨basename p, relpath p directory⟩ _ rfl rfl hd1inv hd1gc hd1ym
            refine ⟨hI, hG, ?_, ?_, ?_⟩
            · intro l hl
              rw [hL]
              exact hd1mem l hl
            · intro _
              rw [hC, hd1cnt]
            · intro hdep _
              exact absurd (Or.inr (Or.inl hc2)) hdep
          · rename_i hc2
            split at h
            · rename_i hc3
              simp only [Except.ok.injEq] at h
              subst h
              obtain ⟨hI, hG, hL, hC⟩ :=
                attachChild_props y (Nat.toDigits 10 (isoWeek yy mm dd))
                  ⟨GKey.ki (isoWeek yy mm dd),
                    y ++ Nat.toDigits 10 (isoWeek yy mm dd), [], []⟩
                  ⟨basename p, relpath p directory⟩ _ rfl rfl hd1inv hd1gc hd1ym
              refine ⟨hI, hG, ?_, ?_, ?_⟩
              · intro l hl
                rw [hL]
                exact hd1mem l hl
              · intro _
                rw [hC, hd1cnt]
              · intro hdep _
                exact absurd (Or.inr (Or.inr hc3)) hdep
            · rename_i hc3
              simp only [Except.ok.injEq] at h
              subst h
              refine ⟨hd1inv, hd1gc, hd1mem, ?_, ?_⟩
              · intro hdep
                exfalso
                rcases hdep with hdd | hdd | hdd
                · exact hc1 (Or.inl hdd)
                · exact hc2 hdd
                · exact hc3 hdd
              · intro _ _
                exact ⟨hd1cnt, hymem⟩
    · exact absurd h (by simp)

/-- The final ordering pass permutes the top-level entries. -/
theorem pySortedRev_perm (d : TopDict) : (pySortedRev d).Perm d := by
  unfold pySortedRev
  exact (List.reverse_perm _).trans
    ((perm_entry_insertionSort d.reverse).trans (List.reverse_perm d))

/-- Per-entry note count is unchanged by a group's own `sort`. -/
theorem entryCount_groupSort (g : Group) :
    (groupSort g).notes.length
      + (((groupSort g).children.map (fun c => c.2.notes.length)).sum)
      = g.notes.length + ((g.children.map (fun c => c.2.notes.length)).sum) := by
  simp only [groupSort]
  rw [(perm_note_insertionSort g.notes).length_eq,
    ((perm_entry_insertionSort g.children).map (fun c => c.2.notes.length)).sum_eq]

/-- The count of notes survives the final ordering pass. -/
theorem notesCount_final (d : TopDict) :
    notesCount ((pySortedRev d).map (fun e => (e.1, groupSort e.2))) = notesCount d := by
  have h1 : notesCount ((pySortedRev d).map (fun e => (e.1, groupSort e.2)))
      = notesCount (pySortedRev d) := by
    simp only [notesCount, List.map_map]
    congr 1
    apply List.map_congr_left
    intro e _
    exact entryCount_groupSort e.2
  rw [h1]
  simp only [notesCount]
  exact ((pySortedRev_perm d).map _).sum_eq

/-- Label membership survives the final ordering pass. -/
theorem labels_final (d : TopDict) (l : Path) (hl : l ∈ d.map (fun e => e.1)) :
    l ∈ ((pySortedRev d).map (fun e => (e.1, groupSort e.2))).map (fun e => e.1) := by
  have h1 : ((pySortedRev d).map (fun e => (e.1, groupSort e.2))).map (fun e => e.1)
      = (pySortedRev d).map (fun e => e.1) := by
    simp [List.map_map]
  rw [h1]
  exact (((pySortedRev_perm d).map (fun e => e.1)).mem_iff).mpr hl

/-- Leaves survive the final ordering pass. -/
theorem noGrandchildren_final (d : TopDict) (h : noGrandchildren d = true) :
    noGrandchildren ((pySortedRev d).map (fun e => (e.1, groupSort e.2))) = true := by
  simp only [noGrandchildren, List.all_eq_true] at h ⊢
  intro e he
  obtain ⟨e0, he0, heq⟩ := List.mem_map.mp he
  have he0d : e0 ∈ d := ((pySortedRev_perm d).mem_iff).mp he0
  have horig := h e0 he0d
  rw [← heq]
  simp only [groupSort, List.all_eq_true] at horig ⊢
  intro c hc
  exact horig c (((perm_entry_insertionSort e0.2.children).mem_iff).mp hc)

/-- The fold of the grouping loop: invariants, label growth, and the two
counting regimes. -/
theorem indexFold_props (directory depth : Path) (ps : List Path) :
    ∀ (d dd : TopDict), ps.foldlM (indexStep directory depth) d = Except.ok dd →
    TopInv d → noGrandchildren d = true →
    TopInv dd ∧ noGrandchildren dd = true
    ∧ (∀ l ∈ d.map (fun e => e.1), l ∈ dd.map (fun e => e.1))
    ∧ ((depth = ("year").data ∨ depth = ("month").data ∨ depth = ("week").data) →
        notesCount dd = notesCount d + ps.length)
    ∧ (¬ (depth = ("year").data ∨ depth = ("month").data ∨ depth = ("week").data) →
        (∀ p ∈ ps, fullDated p = true) →
        notesCount dd = notesCount d
        ∧ ∀ p ∈ ps, pathYear p ∈ dd.map (fun e => e.1)) := by
  induction ps with
  | nil =>
    intro d dd h hinv hgc
    rw [List.foldlM_nil] at h
    simp only [pure, Except.pure, Except.ok.injEq] at h
    subst h
    exact ⟨hinv, hgc, fun l hl => hl, by intro _; simp,
      fun _ _ => ⟨rfl, by intro p hp; cases hp⟩⟩
  | cons p ps ih =>
    intro d dd h hinv hgc
    rw [List.foldlM_cons] at h
    cases hstep : indexStep directory depth d p with
    | error e =>
      rw [hstep] at h
      simp only [Bind.bind, Except.bind] at h
      exact absurd h (by simp)
    | ok d1 =>
      rw [hstep] at h
      simp only [Bind.bind, Except.bind] at h
      obtain ⟨hinv1, hgc1, hmem1, hcnt1, hdrop1⟩ :=
        indexStep_props directory depth d d1 p hstep hinv hgc
      obtain ⟨hinvd, hgcd, hmemd, hcntd, hdropd⟩ := ih d1 dd h hinv1 hgc1
      refine ⟨hinvd, hgcd, ?_, ?_, ?_⟩
      · intro l hl
        exact hmemd l (hmem1 l hl)
      · intro hdep
        rw [hcntd hdep, hcnt1 hdep, List.length_cons]
        omega
      · intro hdep hfull
        obtain ⟨hc1, hy1⟩ := hdrop1 hdep (hfull p (List.mem_cons_self p ps))
        obtain ⟨hcd, hyd⟩ := hdropd hdep (fun q hq => hfull q (List.mem_cons_of_mem p hq))
        refine ⟨by rw [hcd, hc1], ?_⟩
        intro q hq
        cases hq with
        | head => exact hmemd _ hy1
        | tail _ hq2 => exact hyd q hq2

/-- The invariant holds for the fold's initial dictionary. -/
theorem TopInv_init :
    TopInv [(othersLabel, ⟨GKey.ks zzzz, ("other").data, [], []⟩)] := by
  refine ⟨by simp, by simp, ?_⟩
  intro e he
  simp only [List.mem_singleton] at he
  subst he
  left
  exact ⟨rfl, rfl⟩

/-- C4: `index_data` drops no path at the depths year, month and week: the
returned tree is two-level and contains exactly one note per distinct input
path. -/
theorem index_data_no_path_dropped (ps : List Path) (directory depth : Path) (gs : TopDict)
    (hdep : depth = ("year").data ∨ depth = ("month").data ∨ depth = ("week").data)
    (h : index_data ps.dedup directory depth = Except.ok gs) :
    notesCount gs = ps.dedup.length ∧ noGrandchildren gs = true := by
  obtain ⟨d, hfold, hgs⟩ := index_data_eq _ _ _ _ h
  obtain ⟨hinvd, hgcd, _, hcnt, _⟩ :=
    indexFold_props directory depth ps.dedup _ d hfold TopInv_init rfl
  subst hgs
  refine ⟨?_, noGrandchildren_final d hgcd⟩
  rw [notesCount_final, hcnt hdep]
  simp [notesCount]

/-- Witness for C4 at a concrete path list with a duplicate. -/
theorem index_data_no_path_dropped_witness :
    (("month").data = ("year").data ∨ ("month").data = ("month").data
      ∨ ("month").data = ("week").data)
    ∧ index_data (c4Paths.dedup) ((".").data) (("month").data) = Except.ok c4Groups
    ∧ notesCount c4Groups = c4Paths.dedup.length
    ∧ noGrandchildren c4Groups = true := by
  refine ⟨Or.inr (Or.inl rfl), rfl, ?_⟩
  exact index_data_no_path_dropped c4Paths ((".").data) (("month").data) c4Groups
    (Or.inr (Or.inl rfl)) rfl

/-- C10: at any depth outside year, month and week, `index_data` creates the
year group of every fully dated path but attaches the note nowhere: the
returned tree holds zero notes yet lists every year label. -/
theorem index_data_other_depth_drops (ps : List Path) (directory depth : Path) (gs : TopDict)
    (hdep : ¬ (depth = ("year").data ∨ depth = ("month").data ∨ depth = ("week").data))
    (hfull : ∀ p ∈ ps, fullDated p = true)
    (h : index_data ps directory depth = Except.ok gs) :
    notesCount gs = 0 ∧ noGrandchildren gs = true
    ∧ ∀ p ∈ ps, pathYear p ∈ gs.map (fun e => e.1) := by
  obtain ⟨d, hfold, hgs⟩ := index_data_eq _ _ _ _ h
  obtain ⟨hinvd, hgcd, _, _, hdrop⟩ :=
    indexFold_props directory depth ps _ d hfold TopInv_init rfl
  obtain ⟨hcnt, hys⟩ := hdrop hdep hfull
  subst hgs
  refine ⟨by rw [notesCount_final, hcnt]; simp [notesCount], noGrandchildren_final d hgcd, ?_⟩
  intro p hp
  exact labels_final d _ (hys p hp)

/-- Witness for C10 at depth `day` with two fully dated paths. -/
theorem index_data_other_depth_drops_witness :
    (¬ (("day").data = ("year").data ∨ ("day").data = ("month").data
      ∨ ("day").data = ("week").data))
    ∧ (∀ p ∈ c10Paths, fullDated p = true)
    ∧ index_data c10Paths ((".").data) (("day").data) = Except.ok c10Groups
    ∧ notesCount c10Groups = 0
    ∧ (∀ p ∈ c10Paths, pathYear p ∈ c10Groups.map (fun e => e.1)) := by
  refine ⟨by decide, by decide, rfl, ?_, ?_⟩
  · exact (index_data_other_depth_drops c10Paths ((".").data) (("day").data) c10Groups
      (by decide) (by decide) rfl).1
  · exact (index_data_other_depth_drops c10Paths ((".").data) (("day").data) c10Groups
      (by decide) (by decide) rfl).2.2

/-- The sentinel key compares above every 4-digit year key. -/
theorem strLt_zzzz_digit (l : Path) (h4 : l.length = 4) (hd : l.all Char.isDigit = true) :
    strLt zzzz l = false := by
  match l with
  | [] => simp at h4
  | x :: rest =>
    have hx : x.isDigit = true := by
      simp only [List.all_cons, Bool.and_eq_true] at hd
      exact hd.1
    have hxz : x < 'z' := by
      have h2 : x.val ≤ 57 := by
        simp [Char.isDigit] at hx
        exact hx.2
      rw [Char.lt_def, UInt32.lt_def, BitVec.lt_def]
      rw [UInt32.le_def, BitVec.le_def] at h2
      have hz : ((('z').val.toBitVec.toNat)) = 122 := by decide
      have h57 : ((((57 : UInt32)).toBitVec.toNat)) = 57 := by decide
      rw [h57] at h2
      rw [hz]
      omega
    show strLt ('z' :: 'z' :: 'z' :: 'z' :: []) (x :: rest) = false
    simp only [strLt]
    rw [if_neg (asymm hxz), if_pos hxz]

/-- The invariant survives the final ordering pass. -/
theorem TopInv_final (d : TopDict) (h : TopInv d) :
    TopInv ((pySortedRev d).map (fun e => (e.1, groupSort e.2))) := by
  obtain ⟨h1, h2, h3⟩ := h
  have hlab : ((pySortedRev d).map (fun e => (e.1, groupSort e.2))).map (fun e => e.1)
      = (pySortedRev d).map (fun e => e.1) := by
    simp [List.map_map]
  refine ⟨?_, ?_, ?_⟩
  · rw [hlab]
    exact ((pySortedRev_perm d).map (fun e => e.1)).nodup_iff.mpr h1
  · rw [hlab]
    exact ((pySortedRev_perm d).map (fun e => e.1)).mem_iff.mpr h2
  · intro e he
    obtain ⟨e0, he0, heq⟩ := List.mem_map.mp he
    have he0d : e0 ∈ d := (pySortedRev_perm d).mem_iff.mp he0
    have hi := h3 e0 he0d
    rw [← heq]
    simpa [groupSort] using hi

/-- Distinct labels force distinct keys under the invariant. -/
theorem TopInv_keys_nodup (d : TopDict) (h : TopInv d) :
    (d.map (fun e => e.2.key)).Nodup := by
  obtain ⟨h1, _, h3⟩ := h
  have hp : d.Pairwise (fun a b => ¬ a.1 = b.1) := List.pairwise_map.mp h1
  apply List.pairwise_map.mpr
  refine hp.imp_of_mem ?_
  intro a b ha hb hne hkeyeq
  rcases h3 a ha with ⟨ha1, ha2⟩ | ⟨ha2, ha3, ha4⟩ <;>
    rcases h3 b hb with ⟨hb1, hb2⟩ | ⟨hb2, hb3, hb4⟩
  · exact hne (ha1.trans hb1.symm)
  · rw [ha2, hb2] at hkeyeq
    have hzb : zzzz = b.1 := by
      simpa using hkeyeq
    have : zzzz.all Char.isDigit = true := by
      rw [hzb]
      exact hb4
    exact absurd this (by decide)
  · rw [ha2, hb2] at hkeyeq
    have hza : zzzz = a.1 := by
      have := hkeyeq.symm
      simpa using this
    have : zzzz.all Char.isDigit = true := by
      rw [hza]
      exact ha4
    exact absurd this (by decide)
  · rw [ha2, hb2] at hkeyeq
    exact hne (by simpa using hkeyeq)

/-- C1 (amended): the top-level groups of every returned tree are strictly
descending by sort key, and the sentinel "Other notes" group is always the
FIRST top-level entry (its key `"zzzz"` compares above every year key under
the descending sort). -/
theorem index_data_top_descending (notes : List Path) (directory depth : Path) (gs : TopDict)
    (h : index_data notes directory depth = Except.ok gs) :
    (topKeys gs).Pairwise (fun a b => keyLt b a = true)
    ∧ gs.head?.map (fun e => e.1) = some othersLabel := by
  obtain ⟨d, hfold, hgs⟩ := index_data_eq _ _ _ _ h
  obtain ⟨hinvd, _, _, _, _⟩ :=
    indexFold_props directory depth notes _ d hfold TopInv_init rfl
  have hinvgs : TopInv gs := by
    rw [hgs]
    exact TopInv_final d hinvd
  have hkeysnd : (gs.map (fun e => e.2.key)).Nodup := TopInv_keys_nodup gs hinvgs
  have hkeysle : (gs.map (fun e => e.2.key)).Pairwise (fun a b => keyLe b a = true) := by
    rw [hgs]
    have hmm : ((pySortedRev d).map (fun e => (e.1, groupSort e.2))).map (fun e => e.2.key)
        = (pySortedRev d).map (fun e => e.2.key) := by
      simp [List.map_map, groupSort]
    rw [hmm]
    rw [List.pairwise_map]
    unfold pySortedRev
    rw [List.pairwise_reverse]
    exact sorted_entry_insertionSort d.reverse
  have hlt : (gs.map (fun e => e.2.key)).Pairwise (fun a b => keyLt b a = true) := by
    have hcomb := hkeysle.and hkeysnd
    refine hcomb.imp ?_
    intro a b hab
    exact keyLt_of_keyLe_ne b a hab.1 (fun he => hab.2 he.symm)
  refine ⟨hlt, ?_⟩
  obtain ⟨hnd, hmem, hinv3⟩ := hinvgs
  cases hgs0 : gs with
  | nil =>
    rw [hgs0] at hmem
    simp at hmem
  | cons g0 rest =>
    rw [hgs0] at hmem hinv3 hlt
    suffices hsuff : g0.1 = othersLabel by
      simp [hsuff]
    by_contra hne0
    simp only [List.map_cons, List.mem_cons] at hmem
    rcases hmem with hmem | hmem
    · exact hne0 hmem.symm
    · obtain ⟨e, he, heq⟩ := List.mem_map.mp hmem
      have hinve := hinv3 e (List.mem_cons_of_mem _ he)
      have hekey : e.2.key = GKey.ks zzzz := by
        rcases hinve with ⟨_, hk⟩ | ⟨_, hlen, _⟩
        · exact hk
        · rw [heq] at hlen
          exact absurd hlen (by decide)
      have hg0 := hinv3 g0 (List.mem_cons_self _ _)
      have hg0key : ∃ l, g0.2.key = GKey.ks l ∧ l.length = 4 ∧ l.all Char.isDigit = true := by
        rcases hg0 with ⟨hl, _⟩ | ⟨hk, hlen, hdig⟩
        · exact absurd hl hne0
        · exact ⟨g0.1, hk, hlen, hdig⟩
      obtain ⟨l, hk, hlen, hdig⟩ := hg0key
      simp only [List.map_cons] at hlt
      have hrel := (List.pairwise_cons.mp hlt).1 e.2.key
        (List.mem_map.mpr ⟨e, he, rfl⟩)
      rw [hekey, hk] at hrel
      simp only [keyLt] at hrel
      rw [strLt_zzzz_digit l hlen hdig] at hrel
      exact absurd hrel (by simp)

/-- Witness for the amended C1 at a concrete run. -/
theorem index_data_top_descending_witness :
    index_data [("2023/06/15/x.md").data] ((".").data) (("year").data) = Except.ok c1Groups
    ∧ (topKeys c1Groups).Pairwise (fun a b => keyLt b a = true)
    ∧ c1Groups.head?.map (fun e => e.1) = some othersLabel := by
  have hmain := index_data_top_descending [("2023/06/15/x.md").data] ((".").data)
    (("year").data) c1Groups rfl
  exact ⟨rfl, hmain.1, hmain.2⟩
